import Mathlib

/-!
Verification of the validator-side miner-index store of the data-universe
repository (`src/storage/validator/sqlite_memory_validator_storage.py`).

The Python module keeps three pieces of state: a `Miner` table
(hotkey, minerId, lastUpdated, credibility), one bucket table per data source
(`Reddit`, `Twitter`) with primary key `(minerId, labelId, timeBucketId)` and
payload `contentSizeBytes`, and an in-process label interner
(`AutoIncrementDict`).  SQLite REAL arithmetic is IEEE-754 binary64: it is
embedded as rational arithmetic over `ℚ` with every operation (INTEGER→REAL
conversion, multiplication, running `SUM` accumulation, division) followed by
`RN`, round to nearest with ties to even at 53 bits of precision (exponent
unbounded: the exercised range is far from overflow and subnormals).
Python's `int(...)` conversion is embedded as truncation toward zero;
SQLite's `NULL` results (division by zero, failed joins, empty sums) are
embedded as `Option`.
-/

namespace DataUniverse

/-- Truncation toward zero of a rational number: the embedding of Python's
`int(...)` applied to a SQL REAL value. -/
def truncRat (q : ℚ) : Int :=
  if 0 ≤ q then ⌊q⌋ else -⌊-q⌋

theorem truncRat_intCast (n : ℤ) : truncRat (n : ℚ) = n := by
  unfold truncRat
  by_cases h : (0 : ℚ) ≤ (n : ℚ)
  · simp [h, Int.floor_intCast]
  · rw [if_neg h, show -((n : ℚ)) = ((-n : ℤ) : ℚ) by push_cast; ring,
      Int.floor_intCast]
    ring

theorem truncRat_zero : truncRat 0 = 0 := by
  simpa using truncRat_intCast 0

theorem truncRat_eq_floor {q : ℚ} (h : 0 ≤ q) : truncRat q = ⌊q⌋ := if_pos h

theorem truncRat_le_self {q : ℚ} (h : 0 ≤ q) : (truncRat q : ℚ) ≤ q := by
  rw [truncRat_eq_floor h]; exact Int.floor_le q

theorem truncRat_le_int {q : ℚ} {n : ℤ} (h0 : 0 ≤ q) (h : q ≤ (n : ℚ)) :
    truncRat q ≤ n := by
  rw [truncRat_eq_floor h0]
  calc ⌊q⌋ ≤ ⌊(n : ℚ)⌋ := Int.floor_mono h
    _ = n := Int.floor_intCast n

theorem truncRat_lt_int {q : ℚ} {n : ℤ} (h0 : 0 ≤ q) (h : q < (n : ℚ) + 1) :
    truncRat q ≤ n := by
  rw [truncRat_eq_floor h0]
  have hlt : ⌊q⌋ < n + 1 := by
    apply Int.floor_lt.mpr
    push_cast
    exact h
  omega

theorem truncRat_nonneg {q : ℚ} (h : 0 ≤ q) : 0 ≤ truncRat q := by
  rw [truncRat_eq_floor h]; exact Int.floor_nonneg.mpr h

/-- Round a rational to the nearest integer, ties to even: the rounding of the
IEEE 754 default mode, applied at integer granularity. -/
def roundHE (x : ℚ) : ℤ :=
  if x - ⌊x⌋ < 1/2 then ⌊x⌋
  else if 1/2 < x - ⌊x⌋ then ⌊x⌋ + 1
  else if 2 ∣ ⌊x⌋ then ⌊x⌋ else ⌊x⌋ + 1

/-- Round a positive rational onto the binary64 grid: scale into the value's
binade so that the 53-bit mantissa sits at integer granularity, round to
nearest even, and scale back. -/
def RNpos (q : ℚ) : ℚ :=
  (roundHE (q * 2 ^ ((52 : ℤ) - Int.log 2 q)) : ℚ) *
    2 ^ (Int.log 2 q - (52 : ℤ))

/-- IEEE 754 binary64 rounding (round to nearest, ties to even) of a real
(here: rational) value.  The exponent is unbounded: gradual underflow and
overflow lie outside every value range this module's storage pipeline
produces (sizes below 2^63, credibilities in [0,1]). -/
def RN (q : ℚ) : ℚ :=
  if 0 < q then RNpos q else if q < 0 then -RNpos (-q) else 0

/-- The unit roundoff of binary64: relative rounding error bound 2^-53. -/
def eps53 : ℚ := 1 / 2 ^ 53

theorem roundHE_le (x : ℚ) : (roundHE x : ℚ) ≤ x + 1/2 := by
  unfold roundHE
  have hfl : (⌊x⌋ : ℚ) ≤ x := Int.floor_le x
  split_ifs with h1 h2 h3
  · linarith
  · push_cast
    linarith
  · linarith
  · push_cast
    have : ¬ 1/2 < x - ⌊x⌋ := h2
    push_neg at this
    have : ¬ x - ⌊x⌋ < 1/2 := h1
    push_neg at this
    linarith

theorem le_roundHE (x : ℚ) : x - 1/2 ≤ (roundHE x : ℚ) := by
  unfold roundHE
  have hfl : (⌊x⌋ : ℚ) ≤ x := Int.floor_le x
  have hfl2 : x < ⌊x⌋ + 1 := Int.lt_floor_add_one x
  split_ifs with h1 h2 h3
  · linarith
  · push_cast
    linarith
  · have : ¬ x - ⌊x⌋ < 1/2 := h1
    push_neg at this
    linarith
  · push_cast
    linarith

theorem roundHE_intCast (n : ℤ) : roundHE (n : ℚ) = n := by
  unfold roundHE
  rw [Int.floor_intCast]
  rw [if_pos (by norm_num)]

theorem roundHE_mono {x y : ℚ} (h : x ≤ y) : roundHE x ≤ roundHE y := by
  by_contra hlt
  push_neg at hlt
  have h1 : roundHE y + 1 ≤ roundHE x := hlt
  have h2 : (roundHE x : ℚ) ≤ x + 1/2 := roundHE_le x
  have h3 : y - 1/2 ≤ (roundHE y : ℚ) := le_roundHE y
  have hyx : y ≤ x := by
    have : ((roundHE y + 1 : ℤ) : ℚ) ≤ (roundHE x : ℚ) := by exact_mod_cast h1
    push_cast at this
    linarith
  have hxy : x = y := le_antisymm h hyx
  rw [hxy] at hlt
  exact lt_irrefl _ hlt

theorem log2_eq {q : ℚ} {e : ℤ} (h1 : (2:ℚ)^e ≤ q) (h2 : q < (2:ℚ)^(e+1)) :
    Int.log 2 q = e := by
  have hq : 0 < q := lt_of_lt_of_le (zpow_pos (by norm_num) e) h1
  have hcast : ((2:ℕ) : ℚ) = (2:ℚ) := by norm_num
  have hle : e ≤ Int.log 2 q := by
    rw [← Int.zpow_le_iff_le_log (by norm_num) hq, hcast]
    exact h1
  have hlt : Int.log 2 q < e + 1 := by
    rw [← Int.lt_zpow_iff_log_lt (by norm_num) hq, hcast]
    exact h2
  omega

theorem RN_eval {q : ℚ} {e : ℤ} {m : ℤ}
    (h1 : (2:ℚ)^e ≤ q) (h2 : q < (2:ℚ)^(e+1))
    (hm : roundHE (q * (2:ℚ)^((52 : ℤ) - e)) = m) :
    RN q = (m : ℚ) * (2:ℚ)^(e - (52 : ℤ)) := by
  have hq : 0 < q := lt_of_lt_of_le (zpow_pos (by norm_num) e) h1
  unfold RN RNpos
  rw [if_pos hq, log2_eq h1 h2, hm]

theorem RN_zero : RN 0 = 0 := by
  unfold RN
  rw [if_neg (lt_irrefl 0), if_neg (lt_irrefl 0)]

/-- Dyadic rationals with at most 53 mantissa bits are binary64 values and
round to themselves. -/
theorem RN_rep {m : ℤ} (j : ℤ) (h0 : 0 ≤ m) (h1 : m ≤ 2^53) :
    RN ((m:ℚ) * (2:ℚ)^j) = (m:ℚ) * (2:ℚ)^j := by
  rcases eq_or_lt_of_le h0 with hm0 | hm0
  · rw [← hm0]
    simpa using RN_zero
  · set q : ℚ := (m:ℚ) * (2:ℚ)^j with hqdef
    have h2pos : (0:ℚ) < 2 := by norm_num
    have hq : 0 < q := by
      apply mul_pos _ (zpow_pos h2pos j)
      exact_mod_cast hm0
    set e : ℤ := Int.log 2 q with hedef
    have hlow : (2:ℚ)^e ≤ q := by
      have h := Int.zpow_log_le_self (by norm_num : 1 < 2) hq
      norm_num at h
      exact h
    have hhigh : q < (2:ℚ)^(e+1) := by
      have h := Int.lt_zpow_succ_log_self (by norm_num : 1 < 2) q
      norm_num at h
      exact h
    have hqle : q ≤ (2:ℚ)^(j + 53) := by
      rw [hqdef, zpow_add₀ (by norm_num : (2:ℚ) ≠ 0)]
      calc (m:ℚ) * (2:ℚ)^j ≤ ((2^53 : ℤ) : ℚ) * (2:ℚ)^j := by
            apply mul_le_mul_of_nonneg_right _ (le_of_lt (zpow_pos h2pos j))
            exact_mod_cast h1
        _ = (2:ℚ)^j * (2:ℚ)^(53:ℤ) := by
            rw [show ((2:ℚ))^(53:ℤ) = (2:ℚ)^(53:ℕ) from zpow_natCast (2:ℚ) 53]
            push_cast
            ring
    have hered : e ≤ j + 53 := by
      by_contra hgt
      push_neg at hgt
      have hstep : (2:ℚ)^(j+54) ≤ (2:ℚ)^e :=
        zpow_le_zpow_right₀ (by norm_num) (by omega)
      have hcontr : (2:ℚ)^(j+54) ≤ (2:ℚ)^(j+53) :=
        le_trans (le_trans hstep hlow) hqle
      have : (j:ℤ) + 54 ≤ j + 53 :=
        (zpow_le_zpow_iff_right₀ (by norm_num : (1:ℚ) < 2)).mp hcontr
      omega
    have hscaled : ∃ M : ℤ, q * (2:ℚ)^((52:ℤ) - e) = (M:ℚ) := by
      by_cases hcase : e ≤ j + 52
      · refine ⟨m * 2^(j + 52 - e).toNat, ?_⟩
        rw [hqdef]
        push_cast
        rw [mul_assoc, ← zpow_add₀ (by norm_num : (2:ℚ) ≠ 0),
          ← zpow_natCast (2:ℚ) (j + 52 - e).toNat,
          Int.toNat_of_nonneg (by omega)]
        ring_nf
      · have he : e = j + 53 := by omega
        have hq53 : q = (2:ℚ)^(j + 53) := by
          refine le_antisymm hqle ?_
          rw [← he]
          exact hlow
        refine ⟨2^52, ?_⟩
        rw [hq53, ← zpow_add₀ (by norm_num : (2:ℚ) ≠ 0)]
        have harith : j + 53 + (52 - e) = 52 := by omega
        rw [harith]
        push_cast
        norm_num
    obtain ⟨M, hM⟩ := hscaled
    have hRN : RN q = (M:ℚ) * (2:ℚ)^(e - 52) := by
      apply RN_eval hlow hhigh
      rw [hM]
      exact roundHE_intCast M
    rw [hRN, ← hM]
    rw [mul_assoc, ← zpow_add₀ (by norm_num : (2:ℚ) ≠ 0)]
    have : (52:ℤ) - e + (e - 52) = 0 := by omega
    rw [this, zpow_zero, mul_one]

/-- Nonnegative integers with at most 53 bits cast to binary64 exactly. -/
theorem RN_intCast {n : ℤ} (h0 : 0 ≤ n) (h1 : n ≤ 2^53) : RN (n:ℚ) = n := by
  have := RN_rep 0 h0 h1
  simpa using this

theorem RN_eq_self_of (q : ℚ) (m : ℤ) (j : ℤ) (h0 : 0 ≤ m) (h1 : m ≤ 2^53)
    (hq : q = (m:ℚ) * (2:ℚ)^j) : RN q = q := by
  rw [hq]
  exact RN_rep j h0 h1

theorem RN_hlow {q : ℚ} (hq : 0 < q) : (2:ℚ)^(Int.log 2 q) ≤ q := by
  have h := Int.zpow_log_le_self (by norm_num : 1 < 2) hq
  norm_num at h
  exact h

theorem RN_hhigh {q : ℚ} (hq : 0 < q) : q < (2:ℚ)^(Int.log 2 q + 1) := by
  have h := Int.lt_zpow_succ_log_self (by norm_num : 1 < 2) q
  norm_num at h
  exact h

theorem scaled_bounds {q : ℚ} (hq : 0 < q) :
    ((2:ℚ)^(52:ℕ) ≤ q * (2:ℚ)^((52 : ℤ) - Int.log 2 q)) ∧
    (q * (2:ℚ)^((52 : ℤ) - Int.log 2 q) < (2:ℚ)^(53:ℕ)) := by
  have h2 : (0:ℚ) < 2 := by norm_num
  have hfpos : (0:ℚ) < (2:ℚ)^((52 : ℤ) - Int.log 2 q) := zpow_pos h2 _
  constructor
  · have := mul_le_mul_of_nonneg_right (RN_hlow hq) (le_of_lt hfpos)
    calc (2:ℚ)^(52:ℕ) = (2:ℚ)^(Int.log 2 q) * (2:ℚ)^((52:ℤ) - Int.log 2 q) := by
          rw [← zpow_add₀ (by norm_num : (2:ℚ) ≠ 0)]
          rw [show Int.log 2 q + ((52:ℤ) - Int.log 2 q) = (52:ℤ) by omega]
          norm_num
      _ ≤ q * (2:ℚ)^((52:ℤ) - Int.log 2 q) := this
  · have := mul_lt_mul_of_pos_right (RN_hhigh hq) hfpos
    calc q * (2:ℚ)^((52:ℤ) - Int.log 2 q)
        < (2:ℚ)^(Int.log 2 q + 1) * (2:ℚ)^((52:ℤ) - Int.log 2 q) := this
      _ = (2:ℚ)^(53:ℕ) := by
          rw [← zpow_add₀ (by norm_num : (2:ℚ) ≠ 0)]
          rw [show Int.log 2 q + 1 + ((52:ℤ) - Int.log 2 q) = (53:ℤ) by omega]
          norm_num

/-- The mantissa form of a rounded positive value. -/
theorem RN_form {q : ℚ} (hq : 0 < q) :
    ∃ M : ℤ, 0 ≤ M ∧ M ≤ 2^53 ∧
      RN q = (M:ℚ) * (2:ℚ)^(Int.log 2 q - 52) := by
  obtain ⟨hs1, hs2⟩ := scaled_bounds hq
  refine ⟨roundHE (q * (2:ℚ)^((52 : ℤ) - Int.log 2 q)), ?_, ?_, ?_⟩
  · have h1 := le_roundHE (q * (2:ℚ)^((52 : ℤ) - Int.log 2 q))
    have : (0:ℚ) ≤ (roundHE (q * (2:ℚ)^((52 : ℤ) - Int.log 2 q)) : ℚ) := by
      have h52 : (2:ℚ)^(52:ℕ) - 1/2 ≤
          (roundHE (q * (2:ℚ)^((52 : ℤ) - Int.log 2 q)) : ℚ) := by linarith
      have : (0:ℚ) < (2:ℚ)^(52:ℕ) - 1/2 := by norm_num
      linarith
    exact_mod_cast this
  · have h1 := roundHE_le (q * (2:ℚ)^((52 : ℤ) - Int.log 2 q))
    have hs2' : q * (2:ℚ)^((52 : ℤ) - Int.log 2 q) < 9007199254740992 := by
      have h := hs2
      norm_num at h
      exact h
    have hlt : (roundHE (q * (2:ℚ)^((52 : ℤ) - Int.log 2 q)) : ℚ) <
        ((9007199254740993 : ℤ) : ℚ) := by
      push_cast
      linarith
    have h2 := Int.cast_lt.mp hlt
    have h3 : (2:ℤ)^53 = 9007199254740992 := by norm_num
    omega
  · unfold RN RNpos
    rw [if_pos hq]

theorem RN_err_ub {q : ℚ} (hq : 0 < q) :
    RN q ≤ q + (2:ℚ)^(Int.log 2 q - 53) := by
  unfold RN RNpos
  rw [if_pos hq]
  have h1 := roundHE_le (q * (2:ℚ)^((52 : ℤ) - Int.log 2 q))
  have hfpos : (0:ℚ) < (2:ℚ)^(Int.log 2 q - (52:ℤ)) := zpow_pos (by norm_num) _
  calc (roundHE (q * (2:ℚ)^((52 : ℤ) - Int.log 2 q)) : ℚ) *
        (2:ℚ)^(Int.log 2 q - (52:ℤ))
      ≤ (q * (2:ℚ)^((52 : ℤ) - Int.log 2 q) + 1/2) *
        (2:ℚ)^(Int.log 2 q - (52:ℤ)) :=
        mul_le_mul_of_nonneg_right h1 (le_of_lt hfpos)
    _ = q + (2:ℚ)^(Int.log 2 q - 53) := by
        rw [add_mul, mul_assoc, ← zpow_add₀ (by norm_num : (2:ℚ) ≠ 0)]
        rw [show (52:ℤ) - Int.log 2 q + (Int.log 2 q - 52) = 0 by omega]
        rw [zpow_zero, mul_one]
        congr 1
        rw [show Int.log 2 q - 53 = -1 + (Int.log 2 q - 52) by omega]
        rw [zpow_add₀ (by norm_num : (2:ℚ) ≠ 0)]
        norm_num

theorem RN_err_lb {q : ℚ} (hq : 0 < q) :
    q - (2:ℚ)^(Int.log 2 q - 53) ≤ RN q := by
  unfold RN RNpos
  rw [if_pos hq]
  have h1 := le_roundHE (q * (2:ℚ)^((52 : ℤ) - Int.log 2 q))
  have hfpos : (0:ℚ) < (2:ℚ)^(Int.log 2 q - (52:ℤ)) := zpow_pos (by norm_num) _
  calc q - (2:ℚ)^(Int.log 2 q - 53)
      = (q * (2:ℚ)^((52 : ℤ) - Int.log 2 q) - 1/2) *
        (2:ℚ)^(Int.log 2 q - (52:ℤ)) := by
        rw [sub_mul, mul_assoc, ← zpow_add₀ (by norm_num : (2:ℚ) ≠ 0)]
        rw [show (52:ℤ) - Int.log 2 q + (Int.log 2 q - 52) = 0 by omega]
        rw [zpow_zero, mul_one]
        congr 1
        rw [show Int.log 2 q - 53 = -1 + (Int.log 2 q - 52) by omega]
        rw [zpow_add₀ (by norm_num : (2:ℚ) ≠ 0)]
        norm_num
    _ ≤ (roundHE (q * (2:ℚ)^((52 : ℤ) - Int.log 2 q)) : ℚ) *
        (2:ℚ)^(Int.log 2 q - (52:ℤ)) :=
        mul_le_mul_of_nonneg_right h1 (le_of_lt hfpos)

theorem eps_bound {q : ℚ} (hq : 0 < q) :
    (2:ℚ)^(Int.log 2 q - 53) ≤ q * eps53 := by
  have h1 : (2:ℚ)^(Int.log 2 q - 53) =
      (2:ℚ)^(Int.log 2 q) * (2:ℚ)^(-53 : ℤ) := by
    rw [sub_eq_add_neg, zpow_add₀ (by norm_num : (2:ℚ) ≠ 0)]
  have h2 : (2:ℚ)^(-53 : ℤ) = eps53 := by
    unfold eps53
    norm_num
  rw [h1, h2]
  apply mul_le_mul_of_nonneg_right (RN_hlow hq)
  unfold eps53
  norm_num

/-- Binary64 rounding overestimates by at most the relative error `eps53`. -/
theorem RN_ub {q : ℚ} (h : 0 ≤ q) : RN q ≤ q * (1 + eps53) := by
  rcases eq_or_lt_of_le h with h0 | h0
  · rw [← h0, RN_zero]
    norm_num
  · calc RN q ≤ q + (2:ℚ)^(Int.log 2 q - 53) := RN_err_ub h0
      _ ≤ q + q * eps53 := by linarith [eps_bound h0]
      _ = q * (1 + eps53) := by ring

/-- Binary64 rounding underestimates by at most the relative error `eps53`. -/
theorem RN_lb {q : ℚ} (h : 0 ≤ q) : q * (1 - eps53) ≤ RN q := by
  rcases eq_or_lt_of_le h with h0 | h0
  · rw [← h0, RN_zero]
    norm_num
  · calc q * (1 - eps53) = q - q * eps53 := by ring
      _ ≤ q - (2:ℚ)^(Int.log 2 q - 53) := by linarith [eps_bound h0]
      _ ≤ RN q := RN_err_lb h0

theorem RN_nonneg {q : ℚ} (h : 0 ≤ q) : 0 ≤ RN q := by
  have := RN_lb h
  have heps : (0:ℚ) ≤ 1 - eps53 := by
    unfold eps53
    norm_num
  nlinarith

/-- Binary64 rounding is monotone (on the nonnegative reals, which is the only
range the storage pipeline produces). -/
theorem RN_mono {x y : ℚ} (hx : 0 ≤ x) (hxy : x ≤ y) : RN x ≤ RN y := by
  rcases eq_or_lt_of_le hx with h0 | h0
  · rw [← h0, RN_zero]
    exact RN_nonneg (le_trans hx hxy)
  · have hy : 0 < y := lt_of_lt_of_le h0 hxy
    have helog : Int.log 2 x ≤ Int.log 2 y := Int.log_mono_right h0 hxy
    rcases eq_or_lt_of_le helog with heq | hlt
    · unfold RN RNpos
      rw [if_pos h0, if_pos hy, ← heq]
      have hfpos : (0:ℚ) < (2:ℚ)^((52 : ℤ) - Int.log 2 x) :=
        zpow_pos (by norm_num) _
      have hs : x * (2:ℚ)^((52 : ℤ) - Int.log 2 x) ≤
          y * (2:ℚ)^((52 : ℤ) - Int.log 2 x) :=
        mul_le_mul_of_nonneg_right hxy (le_of_lt hfpos)
      apply mul_le_mul_of_nonneg_right _ (le_of_lt (zpow_pos (by norm_num) _))
      exact_mod_cast roundHE_mono hs
    · -- different binades: RN x ≤ 2^(ex+1) ≤ 2^ey ≤ RN y
      have hxub : RN x ≤ (2:ℚ)^(Int.log 2 x + 1) := by
        obtain ⟨hs1, hs2⟩ := scaled_bounds h0
        have hs2' : x * (2:ℚ)^((52 : ℤ) - Int.log 2 x) < 9007199254740992 := by
          have h := hs2
          norm_num at h
          exact h
        have hle : (roundHE (x * (2:ℚ)^((52 : ℤ) - Int.log 2 x)) : ℚ) ≤
            (2:ℚ)^(53:ℤ) := by
          have h1 := roundHE_le (x * (2:ℚ)^((52 : ℤ) - Int.log 2 x))
          have hlt : (roundHE (x * (2:ℚ)^((52 : ℤ) - Int.log 2 x)) : ℚ) <
              ((9007199254740993 : ℤ) : ℚ) := by
            push_cast
            linarith
          have h2 := Int.cast_lt.mp hlt
          have h3 : (roundHE (x * (2:ℚ)^((52 : ℤ) - Int.log 2 x)) : ℤ) ≤
              9007199254740992 := by omega
          have h4 : ((roundHE (x * (2:ℚ)^((52 : ℤ) - Int.log 2 x)) : ℤ) : ℚ) ≤
              ((9007199254740992 : ℤ) : ℚ) := by exact_mod_cast h3
          calc (roundHE (x * (2:ℚ)^((52 : ℤ) - Int.log 2 x)) : ℚ)
              ≤ ((9007199254740992 : ℤ) : ℚ) := h4
            _ = (2:ℚ)^(53:ℤ) := by norm_num
        unfold RN RNpos
        rw [if_pos h0]
        calc (roundHE (x * (2:ℚ)^((52 : ℤ) - Int.log 2 x)) : ℚ) *
              (2:ℚ)^(Int.log 2 x - (52:ℤ))
            ≤ (2:ℚ)^(53:ℤ) * (2:ℚ)^(Int.log 2 x - (52:ℤ)) :=
              mul_le_mul_of_nonneg_right hle
                (le_of_lt (zpow_pos (by norm_num) _))
          _ = (2:ℚ)^(Int.log 2 x + 1) := by
              rw [← zpow_add₀ (by norm_num : (2:ℚ) ≠ 0)]
              congr 1
              omega
      have hylb : (2:ℚ)^(Int.log 2 y) ≤ RN y := by
        obtain ⟨hs1, hs2⟩ := scaled_bounds hy
        have hs1' : (4503599627370496 : ℚ) ≤
            y * (2:ℚ)^((52 : ℤ) - Int.log 2 y) := by
          have h := hs1
          norm_num at h
          exact h
        have hge : (2:ℚ)^(52:ℤ) ≤
            (roundHE (y * (2:ℚ)^((52 : ℤ) - Int.log 2 y)) : ℚ) := by
          have h1 := le_roundHE (y * (2:ℚ)^((52 : ℤ) - Int.log 2 y))
          have hgt : ((4503599627370495 : ℤ) : ℚ) <
              (roundHE (y * (2:ℚ)^((52 : ℤ) - Int.log 2 y)) : ℚ) := by
            push_cast
            linarith
          have h2 := Int.cast_lt.mp hgt
          have h3 : (4503599627370496 : ℤ) ≤
              (roundHE (y * (2:ℚ)^((52 : ℤ) - Int.log 2 y)) : ℤ) := by omega
          have h4 : ((4503599627370496 : ℤ) : ℚ) ≤
              ((roundHE (y * (2:ℚ)^((52 : ℤ) - Int.log 2 y)) : ℤ) : ℚ) := by
            exact_mod_cast h3
          calc (2:ℚ)^(52:ℤ) = ((4503599627370496 : ℤ) : ℚ) := by norm_num
            _ ≤ (roundHE (y * (2:ℚ)^((52 : ℤ) - Int.log 2 y)) : ℚ) := h4
        unfold RN RNpos
        rw [if_pos hy]
        calc (2:ℚ)^(Int.log 2 y)
            = (2:ℚ)^(52:ℤ) * (2:ℚ)^(Int.log 2 y - (52:ℤ)) := by
              rw [← zpow_add₀ (by norm_num : (2:ℚ) ≠ 0)]
              congr 1
              omega
          _ ≤ (roundHE (y * (2:ℚ)^((52 : ℤ) - Int.log 2 y)) : ℚ) *
              (2:ℚ)^(Int.log 2 y - (52:ℤ)) :=
              mul_le_mul_of_nonneg_right hge
                (le_of_lt (zpow_pos (by norm_num) _))
      calc RN x ≤ (2:ℚ)^(Int.log 2 x + 1) := hxub
        _ ≤ (2:ℚ)^(Int.log 2 y) :=
          zpow_le_zpow_right₀ (by norm_num) (by omega)
        _ ≤ RN y := hylb

/-- Binary64 rounding is idempotent. -/
theorem RN_idem {q : ℚ} (h : 0 ≤ q) : RN (RN q) = RN q := by
  rcases eq_or_lt_of_le h with h0 | h0
  · rw [← h0, RN_zero, RN_zero]
  · obtain ⟨M, hM0, hM1, hMq⟩ := RN_form h0
    rw [hMq]
    exact RN_rep _ hM0 hM1

/-- Binary64 addition: round the exact sum. -/
def fadd (a b : ℚ) : ℚ := RN (a + b)

/-- Binary64 multiplication: round the exact product. -/
def fmul (a b : ℚ) : ℚ := RN (a * b)

/-- Binary64 division: round the exact quotient. -/
def fdiv (a b : ℚ) : ℚ := RN (a / b)

/-- SQLite's INTEGER→REAL conversion (applied when an INTEGER column meets a
REAL operand): round the integer to binary64. -/
def toReal (n : ℤ) : ℚ := RN ((n : ℤ) : ℚ)

theorem eps53_pos : (0:ℚ) < eps53 := by
  unfold eps53
  norm_num

theorem eps53_lt_one : eps53 < 1 := by
  unfold eps53
  norm_num

theorem one_sub_eps53_pos : (0:ℚ) < 1 - eps53 := by
  unfold eps53
  norm_num

theorem RN_pos {q : ℚ} (h : 0 < q) : 0 < RN q := by
  have hlb := RN_lb (le_of_lt h)
  nlinarith [one_sub_eps53_pos]

theorem toReal_int {n : ℤ} (h0 : 0 ≤ n) (h1 : n ≤ 2^53) :
    toReal n = (n : ℚ) := by
  unfold toReal
  exact RN_intCast h0 h1

theorem RN_30 : RN (30:ℚ) = 30 :=
  RN_eq_self_of 30 30 0 (by norm_num) (by norm_num) (by norm_num)

theorem RN_50 : RN (50:ℚ) = 50 :=
  RN_eq_self_of 50 50 0 (by norm_num) (by norm_num) (by norm_num)

theorem RN_100 : RN (100:ℚ) = 100 :=
  RN_eq_self_of 100 100 0 (by norm_num) (by norm_num) (by norm_num)

theorem RN_150 : RN (150:ℚ) = 150 :=
  RN_eq_self_of 150 150 0 (by norm_num) (by norm_num) (by norm_num)

theorem RN_200 : RN (200:ℚ) = 200 :=
  RN_eq_self_of 200 200 0 (by norm_num) (by norm_num) (by norm_num)

theorem RN_900 : RN (900:ℚ) = 900 :=
  RN_eq_self_of 900 900 0 (by norm_num) (by norm_num) (by norm_num)

theorem RN_10000 : RN (10000:ℚ) = 10000 :=
  RN_eq_self_of 10000 10000 0 (by norm_num) (by norm_num) (by norm_num)

/-- A rational strictly between `m - 1/2` and `m + 1/2` rounds to `m`. -/
theorem roundHE_near {x : ℚ} {m : ℤ} (h1 : (m:ℚ) - 1/2 < x)
    (h2 : x < (m:ℚ) + 1/2) : roundHE x = m := by
  by_cases hge : (m:ℚ) ≤ x
  · have hfl : ⌊x⌋ = m := Int.floor_eq_iff.mpr ⟨hge, by linarith⟩
    unfold roundHE
    rw [hfl, if_pos (by push_cast; linarith)]
  · push_neg at hge
    have hfl : ⌊x⌋ = m - 1 := by
      apply Int.floor_eq_iff.mpr
      constructor
      · push_cast
        linarith
      · push_cast
        linarith
    unfold roundHE
    rw [hfl, if_neg (by push_cast; linarith), if_pos (by push_cast; linarith)]
    omega

/-- A rational exactly halfway between two integers rounds to the even one. -/
theorem roundHE_tie_even {x : ℚ} {m : ℤ} (hx : x = (m:ℚ) + 1/2)
    (he : 2 ∣ m) : roundHE x = m := by
  have hfl : ⌊x⌋ = m := by
    apply Int.floor_eq_iff.mpr
    constructor
    · rw [hx]
      linarith
    · rw [hx]
      push_cast
      linarith
  unfold roundHE
  rw [hfl, hx, if_neg (by push_cast; linarith),
    if_neg (by push_cast; linarith), if_pos he]

/-- Evaluation of `RN` at a concrete non-tie input: binade `e`, mantissa `m`. -/
theorem RN_eval_near (e m : ℤ) {q v : ℚ}
    (h1 : (2:ℚ)^e ≤ q) (h2 : q < (2:ℚ)^(e+1))
    (h3 : (m:ℚ) - 1/2 < q * (2:ℚ)^((52 : ℤ) - e))
    (h4 : q * (2:ℚ)^((52 : ℤ) - e) < (m:ℚ) + 1/2)
    (hv : (m:ℚ) * (2:ℚ)^(e - (52 : ℤ)) = v) :
    RN q = v := by
  rw [← hv]
  exact RN_eval h1 h2 (roundHE_near h3 h4)

/-- Evaluation of `RN` at a concrete tie input, rounding to the even
mantissa `m`. -/
theorem RN_eval_tie (e m : ℤ) {q v : ℚ}
    (h1 : (2:ℚ)^e ≤ q) (h2 : q < (2:ℚ)^(e+1))
    (h3 : q * (2:ℚ)^((52 : ℤ) - e) = (m:ℚ) + 1/2) (hm : 2 ∣ m)
    (hv : (m:ℚ) * (2:ℚ)^(e - (52 : ℤ)) = v) :
    RN q = v := by
  rw [← hv]
  exact RN_eval h1 h2 (roundHE_tie_even h3 hm)

/-- Invariant of the running binary64 sum over nonnegative binary64 terms:
it stays nonnegative, stays a binary64 value, and never decreases below the
accumulator. -/
theorem foldl_fadd_inv :
    ∀ (l : List ℚ), (∀ x ∈ l, 0 ≤ x ∧ RN x = x) →
      ∀ acc : ℚ, 0 ≤ acc → RN acc = acc →
        0 ≤ l.foldl fadd acc ∧ RN (l.foldl fadd acc) = l.foldl fadd acc ∧
          acc ≤ l.foldl fadd acc := by
  intro l
  induction l with
  | nil => intro _ acc h1 h2; exact ⟨h1, h2, le_refl acc⟩
  | cons x l ih =>
    intro hl acc hacc hrep
    obtain ⟨hx0, _⟩ := hl x (List.mem_cons_self x l)
    have hax : (0:ℚ) ≤ acc + x := add_nonneg hacc hx0
    have h1 : 0 ≤ fadd acc x := RN_nonneg hax
    have h2 : RN (fadd acc x) = fadd acc x := RN_idem hax
    have h3 : acc ≤ fadd acc x := by
      have hmono := RN_mono hacc (le_add_of_nonneg_right hx0)
      rw [hrep] at hmono
      exact hmono
    simp only [List.foldl_cons]
    obtain ⟨g1, g2, g3⟩ :=
      ih (fun y hy => hl y (List.mem_cons_of_mem x hy)) (fadd acc x) h1 h2
    exact ⟨g1, g2, le_trans h3 g3⟩

/-- The running binary64 sum dominates every term it has absorbed. -/
theorem foldl_fadd_ge_mem :
    ∀ (l : List ℚ), (∀ x ∈ l, 0 ≤ x ∧ RN x = x) →
      ∀ acc : ℚ, 0 ≤ acc → RN acc = acc →
        ∀ y ∈ l, y ≤ l.foldl fadd acc := by
  intro l
  induction l with
  | nil => intro _ _ _ _ y hy; exact absurd hy (List.not_mem_nil y)
  | cons x l ih =>
    intro hl acc hacc hrep y hy
    obtain ⟨hx0, hxrep⟩ := hl x (List.mem_cons_self x l)
    have hax : (0:ℚ) ≤ acc + x := add_nonneg hacc hx0
    have h1 : 0 ≤ fadd acc x := RN_nonneg hax
    have h2 : RN (fadd acc x) = fadd acc x := RN_idem hax
    simp only [List.foldl_cons]
    rcases List.mem_cons.mp hy with hyx | hyl
    · subst hyx
      have hxle : y ≤ fadd acc y := by
        have hmono := RN_mono hx0 (le_add_of_nonneg_left hacc)
        rw [hxrep] at hmono
        exact hmono
      exact le_trans hxle
        (foldl_fadd_inv l (fun z hz => hl z (List.mem_cons_of_mem y hz))
          (fadd acc y) h1 h2).2.2
    · exact ih (fun z hz => hl z (List.mem_cons_of_mem x hz))
        (fadd acc x) h1 h2 y hyl

/-- The running binary64 sum loses at most a relative `(1 - eps53)` factor per
addition. -/
theorem foldl_fadd_lb :
    ∀ (l : List ℚ), (∀ x ∈ l, 0 ≤ x) → ∀ acc : ℚ, 0 ≤ acc →
      (acc + l.sum) * (1 - eps53) ^ l.length ≤ l.foldl fadd acc := by
  intro l
  induction l with
  | nil => intro _ acc hacc; simp
  | cons x l ih =>
    intro hl acc hacc
    have hx0 := hl x (List.mem_cons_self x l)
    have hsum0 : (0:ℚ) ≤ l.sum :=
      List.sum_nonneg (fun y hy => hl y (List.mem_cons_of_mem x hy))
    have hax : (0:ℚ) ≤ acc + x := add_nonneg hacc hx0
    have h1 : 0 ≤ fadd acc x := RN_nonneg hax
    have hstep : (acc + x) * (1 - eps53) ≤ fadd acc x := RN_lb hax
    have hEnn : (0:ℚ) ≤ 1 - eps53 := le_of_lt one_sub_eps53_pos
    have hpow : (0:ℚ) ≤ (1 - eps53) ^ l.length := pow_nonneg hEnn _
    have hih := ih (fun y hy => hl y (List.mem_cons_of_mem x hy))
      (fadd acc x) h1
    simp only [List.foldl_cons, List.sum_cons, List.length_cons]
    calc (acc + (x + l.sum)) * (1 - eps53) ^ (l.length + 1)
        = ((acc + x) * (1 - eps53) + l.sum * (1 - eps53)) *
            (1 - eps53) ^ l.length := by ring
      _ ≤ ((acc + x) * (1 - eps53) + l.sum) * (1 - eps53) ^ l.length := by
          apply mul_le_mul_of_nonneg_right _ hpow
          have hshrink : l.sum * (1 - eps53) ≤ l.sum := by
            nlinarith [eps53_pos]
          linarith
      _ ≤ (fadd acc x + l.sum) * (1 - eps53) ^ l.length := by
          apply mul_le_mul_of_nonneg_right _ hpow
          linarith
      _ ≤ List.foldl fadd (fadd acc x) l := hih

/-- The arithmetic core of the duplication-discount bound: with `K` the
largest size, `N` the claimant count and `(K+1)(N+3) ≤ 2^53`, the accumulated
relative rounding errors stay below one whole byte. -/
theorem discount_arith {K N : ℚ} (hK : 0 ≤ K) (hN : 0 ≤ N)
    (hkey : (K + 1) * (N + 3) * eps53 ≤ 1) :
    K * (1 + eps53)^2 < (K + 1) * (1 - N * eps53) := by
  have hE : eps53 = 1/9007199254740992 := by
    unfold eps53
    norm_num
  rw [hE] at hkey ⊢
  nlinarith [hkey, hK, hN, mul_nonneg hK hN]

/-- ASCII case folding of one character, the embedding of the character-level
effect of Python's `str.casefold` (uppercase ASCII letters map to lowercase;
everything else is left unchanged). -/
def casefoldChar (c : Char) : Char :=
  if 65 ≤ c.toNat ∧ c.toNat ≤ 90 then Char.ofNat (c.toNat + 32) else c

/-- Embedding of Python's `str.casefold` as applied to label strings. -/
def casefold (s : String) : String :=
  String.mk (s.data.map casefoldChar)

theorem casefoldChar_ne_upper (c : Char) (u : Char)
    (hu1 : 65 ≤ u.toNat) (hu2 : u.toNat ≤ 90) : casefoldChar c ≠ u := by
  unfold casefoldChar
  by_cases h : 65 ≤ c.toNat ∧ c.toNat ≤ 90
  · rw [if_pos h]
    intro heq
    have hval : (Char.ofNat (c.toNat + 32)).toNat = c.toNat + 32 := by
      have hvalid : (c.toNat + 32).isValidChar := by
        have : c.toNat + 32 < 0xd800 := by omega
        exact Or.inl this
      unfold Char.ofNat
      rw [dif_pos hvalid]
      rfl
    have : u.toNat = c.toNat + 32 := by rw [← heq, hval]
    omega
  · rw [if_neg h]
    intro heq
    subst heq
    exact h ⟨hu1, hu2⟩

theorem casefold_ne_NULL (s : String) : casefold s ≠ "NULL" := by
  unfold casefold
  intro heq
  have hdata : s.data.map casefoldChar = "NULL".data := congrArg String.data heq
  have hmem : 'N' ∈ s.data.map casefoldChar := by
    rw [hdata]; decide
  rcases List.mem_map.mp hmem with ⟨c, _, hc⟩
  exact casefoldChar_ne_upper c 'N' (by decide) (by decide) hc

/-- The label interner from the source: a dictionary that automatically assigns
ids to keys, reusing freed ids from `available_ids` before growing `items`.
Freed `items` slots hold `none` (Python stores `None`); `indexes` is the
key-to-id dictionary, embedded as an association list with distinct keys. -/
structure AutoIncrementDict where
  available_ids : List Nat
  items : List (Option String)
  indexes : List (String × Nat)
deriving DecidableEq

namespace AutoIncrementDict

/-- Lookup in the `indexes` dictionary (`key in self.indexes` / `self.indexes[key]`). -/
def idxLookup (d : AutoIncrementDict) (key : String) : Option Nat :=
  (d.indexes.find? (fun p => p.1 = key)).map (fun p => p.2)

/-- `AutoIncrementDict.get_or_insert`: return the existing id for `key`, or
assign one, drawing from `available_ids` before extending `items`.  Python's
`set.pop()` removes an arbitrary element of the pool; the embedding removes
the head of the pool list. -/
def get_or_insert (d : AutoIncrementDict) (key : String) :
    AutoIncrementDict × Nat :=
  match d.idxLookup key with
  | some i => (d, i)
  | none =>
    match d.available_ids with
    | key_id :: rest =>
      (⟨rest, d.items.set key_id (some key), (key, key_id) :: d.indexes⟩, key_id)
    | [] =>
      (⟨[], d.items ++ [some key], (key, d.items.length) :: d.indexes⟩,
        d.items.length)

/-- `AutoIncrementDict.get_by_id`: `self.items[id]`.  An out-of-range or freed
slot is embedded as a missing value. -/
def get_by_id (d : AutoIncrementDict) (id : Nat) : Option String :=
  d.items.getD id none

/-- `AutoIncrementDict.delete_key`: free the key's slot and return its id to
the pool. -/
def delete_key (d : AutoIncrementDict) (key : String) : AutoIncrementDict :=
  match d.idxLookup key with
  | some key_id =>
    ⟨key_id :: d.available_ids, d.items.set key_id none,
      d.indexes.filter (fun p => ¬ p.1 = key)⟩
  | none => d

/-- Well-formedness of the interner state: every live id is in range and its
slot holds its key, every pooled id is in range with a freed slot, the pool has
no duplicates, and dictionary keys are distinct. -/
def WF (d : AutoIncrementDict) : Prop :=
  (∀ p ∈ d.indexes, p.2 < d.items.length) ∧
  (∀ p ∈ d.indexes, d.items.getD p.2 none = some p.1) ∧
  (∀ i ∈ d.available_ids, i < d.items.length) ∧
  (∀ i ∈ d.available_ids, d.items.getD i none = none) ∧
  d.available_ids.Nodup ∧
  (d.indexes.map Prod.fst).Nodup

instance (d : AutoIncrementDict) : Decidable (WF d) := by
  unfold WF; infer_instance

theorem idxLookup_none_not_mem {d : AutoIncrementDict} {key : String}
    (h : d.idxLookup key = none) : ∀ p ∈ d.indexes, p.1 ≠ key := by
  intro p hp
  unfold idxLookup at h
  rcases Option.map_eq_none'.mp h with hfind
  have := List.find?_eq_none.mp hfind p hp
  simpa using this

theorem getD_set_self {l : List (Option String)} {i : Nat} {a : Option String}
    (h : i < l.length) : (l.set i a).getD i none = a := by
  simp [List.getD, List.getElem?_set_self, h]

theorem getD_set_ne {l : List (Option String)} {i j : Nat} {a : Option String}
    (h : i ≠ j) : (l.set i a).getD j none = l.getD j none := by
  simp [List.getD, List.getElem?_set_ne h]

theorem getD_append_left {l₁ l₂ : List (Option String)} {i : Nat}
    (h : i < l₁.length) : (l₁ ++ l₂).getD i none = l₁.getD i none := by
  simp [List.getD, List.getElem?_append, h]

theorem get_by_id_set_length {d : AutoIncrementDict} {i : Nat} {s : String}
    (hi : i < d.items.length) :
    (d.items ++ [some s]).getD i none = d.items.getD i none :=
  getD_append_left hi

/-- Interning never destroys an existing live slot. -/
theorem get_or_insert_persists {d : AutoIncrementDict} {key : String}
    (hwf : WF d) :
    ∀ j s, d.get_by_id j = some s →
      (d.get_or_insert key).1.get_by_id j = some s := by
  intro j s hjs
  unfold get_or_insert
  cases hlook : d.idxLookup key with
  | some i => simp [hjs]
  | none =>
    cases hpool : d.available_ids with
    | cons key_id rest =>
      simp only
      unfold get_by_id at hjs ⊢
      have hne : key_id ≠ j := by
        intro heq
        have hmem : key_id ∈ d.available_ids := by rw [hpool]; exact List.mem_cons_self _ _
        have := hwf.2.2.2.1 key_id hmem
        rw [heq] at this
        rw [this] at hjs
        exact Option.noConfusion hjs
      rw [getD_set_ne hne]
      exact hjs
    | nil =>
      simp only
      unfold get_by_id at hjs ⊢
      have hj : j < d.items.length := by
        by_contra hge
        push_neg at hge
        have : d.items.getD j none = none := by
          simp [List.getD, List.getElem?_eq_none hge]
        rw [this] at hjs
        exact Option.noConfusion hjs
      rw [get_by_id_set_length hj]
      exact hjs

/-- Interning makes the returned id resolve to the key. -/
theorem get_or_insert_resolves {d : AutoIncrementDict} {key : String}
    (hwf : WF d) :
    (d.get_or_insert key).1.get_by_id (d.get_or_insert key).2 = some key := by
  unfold get_or_insert
  cases hlook : d.idxLookup key with
  | some i =>
    simp only
    unfold idxLookup at hlook
    rcases Option.map_eq_some'.mp hlook with ⟨p, hfind, hp2⟩
    have hmem := List.mem_of_find?_eq_some hfind
    have hkey : p.1 = key := by simpa using List.find?_some hfind
    have := hwf.2.1 p hmem
    unfold get_by_id
    rw [hp2] at this
    rw [this, hkey]
  | none =>
    cases hpool : d.available_ids with
    | cons key_id rest =>
      simp only
      unfold get_by_id
      have hlt : key_id < d.items.length := by
        apply hwf.2.2.1
        rw [hpool]; exact List.mem_cons_self _ _
      exact getD_set_self hlt
    | nil =>
      simp only
      unfold get_by_id
      simp [List.getD]

/-- Interning preserves well-formedness. -/
theorem get_or_insert_wf {d : AutoIncrementDict} {key : String} (hwf : WF d) :
    WF (d.get_or_insert key).1 := by
  obtain ⟨h1, h2, h3, h4, h5, h6⟩ := hwf
  unfold get_or_insert
  cases hlook : d.idxLookup key with
  | some i => exact ⟨h1, h2, h3, h4, h5, h6⟩
  | none =>
    cases hpool : d.available_ids with
    | cons key_id rest =>
      have hmemp : key_id ∈ d.available_ids := by
        rw [hpool]; exact List.mem_cons_self _ _
      have hlt : key_id < d.items.length := h3 _ hmemp
      have hfree : d.items.getD key_id none = none := h4 _ hmemp
      have hrest : ∀ i ∈ rest, i ∈ d.available_ids := by
        intro i hi; rw [hpool]; exact List.mem_cons_of_mem _ hi
      have hnodup : (key_id :: rest).Nodup := by rwa [hpool] at h5
      refine ⟨?_, ?_, ?_, ?_, ?_, ?_⟩
      · intro p hp
        rcases List.mem_cons.mp hp with heq | hmem
        · subst heq; simpa using hlt
        · simpa using h1 p hmem
      · intro p hp
        rcases List.mem_cons.mp hp with heq | hmem
        · subst heq
          simpa using getD_set_self hlt
        · have hne : key_id ≠ p.2 := by
            intro heq
            have := h2 p hmem
            rw [← heq, hfree] at this
            exact Option.noConfusion this
          rw [getD_set_ne hne]
          exact h2 p hmem
      · intro i hi
        simpa using h3 i (hrest i hi)
      · intro i hi
        have hne : key_id ≠ i := by
          intro heq
          subst heq
          exact (List.nodup_cons.mp hnodup).1 hi
        rw [getD_set_ne hne]
        exact h4 i (hrest i hi)
      · exact (List.nodup_cons.mp hnodup).2
      · simp only [List.map_cons]
        refine List.nodup_cons.mpr ⟨?_, h6⟩
        intro hmem
        rcases List.mem_map.mp hmem with ⟨p, hp, hp1⟩
        exact idxLookup_none_not_mem hlook p hp hp1
    | nil =>
      refine ⟨?_, ?_, ?_, ?_, ?_, ?_⟩
      · intro p hp
        rcases List.mem_cons.mp hp with heq | hmem
        · subst heq; simp
        · have := h1 p hmem
          simp only [List.length_append, List.length_cons, List.length_nil]
          omega
      · intro p hp
        rcases List.mem_cons.mp hp with heq | hmem
        · subst heq
          simp [List.getD]
        · have hlt := h1 p hmem
          rw [getD_append_left hlt]
          exact h2 p hmem
      · intro i hi
        exact absurd hi (List.not_mem_nil i)
      · intro i hi
        exact absurd hi (List.not_mem_nil i)
      · exact List.nodup_nil
      · simp only [List.map_cons]
        refine List.nodup_cons.mpr ⟨?_, h6⟩
        intro hmem
        rcases List.mem_map.mp hmem with ⟨p, hp, hp1⟩
        exact idxLookup_none_not_mem hlook p hp hp1

end AutoIncrementDict

/-- One row of the `Miner` table:
`minerId INTEGER PRIMARY KEY, hotkey VARCHAR UNIQUE, lastUpdated, credibility FLOAT`.
The timestamp is kept as the opaque string the code stores
(`now_str = utcnow().strftime(...)`); credibility is a SQLite REAL, embedded
as `ℚ`. -/
structure MinerRow where
  minerId : Nat
  hotkey : String
  lastUpdated : String
  credibility : ℚ
deriving DecidableEq

/-- One row of a per-source bucket table (`Reddit` / `Twitter`):
primary key `(minerId, labelId, timeBucketId)`, payload `contentSizeBytes`. -/
structure BucketRow where
  minerId : Nat
  labelId : Nat
  timeBucketId : Int
  contentSizeBytes : Int
deriving DecidableEq

/-- The whole mutable state of `SqliteMemoryValidatorStorage`: the `Miner`
table, the two bucket tables, and the in-process label interner. -/
structure Storage where
  miners : List MinerRow
  reddit : List BucketRow
  twitter : List BucketRow
  label_dict : AutoIncrementDict
deriving DecidableEq

/-- The freshly initialised storage (`__init__`): empty tables, empty interner. -/
def emptyStorage : Storage := ⟨[], [], [], ⟨[], [], []⟩⟩

/-- One compressed entry of the wire format: a label spanning parallel lists of
time-bucket ids and sizes (`CompressedEntityBucket`). -/
structure CompressedEntityBucket where
  label : Option String
  time_bucket_ids : List Int
  sizes_bytes : List Int
deriving DecidableEq

/-- The wire shape a miner submits: per source, a list of compressed buckets
(`CompressedMinerIndex.sources`, iterated in insertion order). -/
structure CompressedMinerIndex where
  sources : List (Nat × List CompressedEntityBucket)
deriving DecidableEq

/-- `ScorableDataEntityBucket` as built by `_process_read_results`. -/
structure ScorableDataEntityBucket where
  time_bucket_id : Int
  source : Nat
  label : Option String
  size_bytes : Int
  scorable_bytes : Int
deriving DecidableEq

/-- `ScorableMinerIndex`: all of a miner's scored buckets plus `last_updated`. -/
structure ScorableMinerIndex where
  scorable_data_entity_buckets : List ScorableDataEntityBucket
  last_updated : String
deriving DecidableEq

/-- `_label_value_parse_str`: the value stored in the interner for an optional
label string — the reserved sentinel `"NULL"` for a missing label, otherwise
the casefolded label. -/
def label_value_parse_str (label : Option String) : String :=
  match label with
  | none => "NULL"
  | some s => casefold s

/-- The label conversion applied by `_process_read_results` when reading a
bucket back: `label_value if label_value != "NULL" else None`, where a freed
interner slot yields Python `None` (embedded as `none`), which is `!= "NULL"`
and is passed through. -/
def labelOfValue (label_value : Option String) : Option String :=
  match label_value with
  | some s => if s = "NULL" then none else some s
  | none => none

/-- What a submitted optional label reads back as after the store round-trip:
parse it to its interned string, then apply the read-side conversion. -/
def readBackLabel (label : Option String) : Option String :=
  labelOfValue (some (label_value_parse_str label))

/-- Find the `Miner` row for a hotkey (`SELECT ... FROM Miner WHERE hotkey = ?`
followed by `fetchone`). -/
def findMiner (st : Storage) (hotkey : String) : Option MinerRow :=
  st.miners.find? (fun m => m.hotkey = hotkey)

/-- The rowid SQLite assigns to a newly inserted `Miner` row: one more than the
largest id in the table. -/
def newMinerId (st : Storage) : Nat :=
  (st.miners.foldl (fun acc m => max acc m.minerId) 0) + 1

/-- `_upsert_miner`: `UPDATE OR IGNORE` the row for the hotkey, then
`INSERT OR IGNORE` a fresh row, then `SELECT` the minerId for the hotkey. -/
def upsert_miner (st : Storage) (hotkey : String) (now_str : String)
    (credibility : ℚ) : Storage × Nat :=
  let miners' :=
    if st.miners.any (fun m => m.hotkey = hotkey) then
      st.miners.map (fun m =>
        if m.hotkey = hotkey then
          { m with lastUpdated := now_str, credibility := credibility }
        else m)
    else
      st.miners ++ [⟨newMinerId st, hotkey, now_str, credibility⟩]
  let st' := { st with miners := miners' }
  (st', ((findMiner st' hotkey).map (fun m => m.minerId)).getD 0)

/-- One attempt to intern a parsed label inside the `try:` of
`upsert_compressed_miner_index`.  The bare `except:` in the source exists to
catch a failure while interning (the comment blames unsupported characters);
which strings fail is not decided by this module, so the failure condition is
an explicit parameter `bad`: interning a string `s` with `bad s = true` raises
(and mutates nothing), otherwise `get_or_insert` runs normally. -/
def tryIntern (bad : String → Bool) (d : AutoIncrementDict) (s : String) :
    Option (AutoIncrementDict × Nat) :=
  if bad s then none else some (d.get_or_insert s)

/-- The inner `for time_bucket_id, size_bytes in zip(...)` loop of
`upsert_compressed_miner_index` for one compressed bucket: each iteration
tries to intern the parsed label and appends one row, dropping just that
iteration's row when interning raises. -/
def collectPairs (bad : String → Bool) (miner_id : Nat) (lab : String) :
    AutoIncrementDict → List (Int × Int) → AutoIncrementDict × List BucketRow
  | d, [] => (d, [])
  | d, (tb, sz) :: rest =>
    match tryIntern bad d lab with
    | some di =>
      let r := collectPairs bad miner_id lab di.1 rest
      (r.1, ⟨miner_id, di.2, tb, sz⟩ :: r.2)
    | none => collectPairs bad miner_id lab d rest

/-- The `for compressed_bucket in compressed_buckets` loop for one source. -/
def collectBuckets (bad : String → Bool) (miner_id : Nat) :
    AutoIncrementDict → List CompressedEntityBucket →
      AutoIncrementDict × List BucketRow
  | d, [] => (d, [])
  | d, cb :: rest =>
    let r1 := collectPairs bad miner_id
      (label_value_parse_str cb.label) d (cb.time_bucket_ids.zip cb.sizes_bytes)
    let r2 := collectBuckets bad miner_id r1.1 rest
    (r2.1, r1.2 ++ r2.2)

/-- The `for source, compressed_buckets in index.sources.items()` loop:
source 1 feeds `reddit_values`, every other source feeds `twitter_values`. -/
def collectSources (bad : String → Bool) (miner_id : Nat) :
    AutoIncrementDict → List (Nat × List CompressedEntityBucket) →
      AutoIncrementDict × List BucketRow × List BucketRow
  | d, [] => (d, [], [])
  | d, (source, bs) :: rest =>
    let r1 := collectBuckets bad miner_id d bs
    let r2 := collectSources bad miner_id r1.1 rest
    if source = 1 then (r2.1, r1.2 ++ r2.2.1, r2.2.2)
    else (r2.1, r2.2.1, r1.2 ++ r2.2.2)

/-- `INSERT OR IGNORE` of one row into a bucket table: a row whose primary key
`(minerId, labelId, timeBucketId)` is already present is ignored. -/
def insertOrIgnore (table : List BucketRow) (v : BucketRow) : List BucketRow :=
  if table.any (fun r =>
      r.minerId = v.minerId ∧ r.labelId = v.labelId ∧
        r.timeBucketId = v.timeBucketId) then
    table
  else
    table ++ [v]

/-- `executemany` of the `INSERT OR IGNORE` statement over a list of values. -/
def insertAll (table : List BucketRow) (values : List BucketRow) :
    List BucketRow :=
  values.foldl insertOrIgnore table

/-- `_delete_miner_index`: look up the hotkey's minerId and delete that miner's
rows from both bucket tables; an unknown hotkey changes nothing. -/
def delete_miner_index (st : Storage) (miner_hotkey : String) : Storage :=
  match findMiner st miner_hotkey with
  | some m =>
    { st with
        reddit := st.reddit.filter (fun r => ¬ r.minerId = m.minerId),
        twitter := st.twitter.filter (fun r => ¬ r.minerId = m.minerId) }
  | none => st

/-- `upsert_compressed_miner_index`: upsert the `Miner` row, explode the
compressed index into per-source value lists (interning labels, dropping a row
when interning raises), delete the miner's previous rows, and insert the new
values with `INSERT OR IGNORE`. -/
def upsert_compressed_miner_index (bad : String → Bool) (st : Storage)
    (index : CompressedMinerIndex) (hotkey : String) (credibility : ℚ)
    (now_str : String) : Storage :=
  let res := upsert_miner st hotkey now_str credibility
  let col := collectSources bad res.2 res.1.label_dict index.sources
  let st2 := { res.1 with label_dict := col.1 }
  let st3 := delete_miner_index st2 hotkey
  { st3 with
      reddit := insertAll st3.reddit col.2.1,
      twitter := insertAll st3.twitter col.2.2 }

/-- `delete_miner`: drop the miner's index rows, then
`DELETE FROM Miner WHERE hotkey = ?`. -/
def delete_miner (st : Storage) (hotkey : String) : Storage :=
  let st1 := delete_miner_index st hotkey
  { st1 with miners := st1.miners.filter (fun m => ¬ m.hotkey = hotkey) }

/-- The bucket table the read loop queries for a source tag
(`table = "Reddit" if source == 1 else "Twitter"`). -/
def tableOf (st : Storage) (source : Nat) : List BucketRow :=
  if source = 1 then st.reddit else st.twitter

/-- The `JOIN Miner USING (minerId)` step: the credibility of the miner owning
a row, or nothing when no `Miner` row matches (in which case the row drops out
of the aggregate). -/
def credOf (st : Storage) (minerId : Nat) : Option ℚ :=
  (st.miners.find? (fun m => m.minerId = minerId)).map (fun m => m.credibility)

/-- All rows of a source's table at a `(labelId, timeBucketId)` key — the group
the `TempAgg` CTE aggregates over. -/
def rowsAtKey (st : Storage) (source : Nat) (labelId : Nat)
    (timeBucketId : Int) : List BucketRow :=
  (tableOf st source).filter (fun r =>
    r.labelId = labelId ∧ r.timeBucketId = timeBucketId)

/-- The summands of `SUM(contentSizeBytes * credibility)` at one key: one term
per row that joins to a `Miner` row.  `contentSizeBytes` is an SQLite INTEGER
and `credibility` a REAL, so each product is computed in binary64 after an
INTEGER→REAL conversion of the size. -/
def adjTerms (st : Storage) (source : Nat) (labelId : Nat)
    (timeBucketId : Int) : List ℚ :=
  (rowsAtKey st source labelId timeBucketId).filterMap (fun r =>
    (credOf st r.minerId).map (fun c => fmul (toReal r.contentSizeBytes) c))

/-- `TempAgg.totalAdjContentSizeBytes` for one key: SQL `SUM` over the group —
a running binary64 accumulation of the group's terms in table order — which is
`NULL` when no row joins (embedded as `none`). -/
def totalAdj (st : Storage) (source : Nat) (labelId : Nat)
    (timeBucketId : Int) : Option ℚ :=
  match adjTerms st source labelId timeBucketId with
  | [] => none
  | ts => some (ts.foldl fadd 0)

/-- The `scorableBytes` column for one of the reading miner's rows:
`contentSizeBytes * (contentSizeBytes * ?) / TempAgg.totalAdjContentSizeBytes`
with `?` the reading miner's credibility, every operation performed in
binary64 on the REAL-converted size.  A missing aggregate or a SQLite
division by zero yields `NULL` (embedded as `none`). -/
def scorableOpt (st : Storage) (source : Nat) (credibility : ℚ)
    (r : BucketRow) : Option ℚ :=
  match totalAdj st source r.labelId r.timeBucketId with
  | none => none
  | some t =>
    if t = 0 then none
    else some (fdiv (fmul (toReal r.contentSizeBytes)
      (fmul (toReal r.contentSizeBytes) credibility)) t)

/-- `_process_read_results` applied to one row of the read query:
`int(row[2] if row[2] else 0)` and `int(row[3] if row[3] else 0)` with `row[3]`
the possibly-`NULL` REAL `scorableBytes`. -/
def mkScoredBucket (st : Storage) (source : Nat) (credibility : ℚ)
    (r : BucketRow) : ScorableDataEntityBucket :=
  { time_bucket_id := r.timeBucketId
    source := source
    label := labelOfValue (st.label_dict.get_by_id r.labelId)
    size_bytes := if r.contentSizeBytes = 0 then 0 else r.contentSizeBytes
    scorable_bytes :=
      match scorableOpt st source credibility r with
      | none => 0
      | some q => if q = 0 then 0 else truncRat q }

/-- The rows the read query returns for one source: the reading miner's rows of
that source's table, in table order. -/
def minerRows (st : Storage) (source : Nat) (minerId : Nat) : List BucketRow :=
  (tableOf st source).filter (fun r => r.minerId = minerId)

/-- `read_miner_index`: `None` for an unknown hotkey; otherwise every bucket
row of the miner (sources 1 then 2), each annotated with its scorable bytes. -/
def read_miner_index (st : Storage) (miner_hotkey : String) :
    Option ScorableMinerIndex :=
  match findMiner st miner_hotkey with
  | none => none
  | some m =>
    some
      { scorable_data_entity_buckets :=
          (minerRows st 1 m.minerId).map
            (mkScoredBucket st 1 m.credibility) ++
          (minerRows st 2 m.minerId).map
            (mkScoredBucket st 2 m.credibility)
        last_updated := m.lastUpdated }

/-- Uniqueness constraints of the `Miner` table: `UNIQUE(hotkey)` and the
integer primary key. -/
def MinersWF (st : Storage) : Prop :=
  (st.miners.map (fun m => m.hotkey)).Nodup ∧
  (st.miners.map (fun m => m.minerId)).Nodup

instance (st : Storage) : Decidable (MinersWF st) := by
  unfold MinersWF; infer_instance

/-- An external call into the store: the operations that can ever create or
remove `Miner` rows. -/
inductive StoreOp where
  | upsertOp (bad : String → Bool) (index : CompressedMinerIndex)
      (hotkey : String) (credibility : ℚ) (now_str : String)
  | deleteOp (hotkey : String)

/-- Run one external call. -/
def applyOp (st : Storage) : StoreOp → Storage
  | .upsertOp bad index hotkey credibility now_str =>
    upsert_compressed_miner_index bad st index hotkey credibility now_str
  | .deleteOp hotkey => delete_miner st hotkey

/-- Run a sequence of external calls. -/
def runOps (st : Storage) (ops : List StoreOp) : Storage :=
  ops.foldl applyOp st

/-- Whether an operation is an index upsert for the given hotkey. -/
def upsertsHotkey (hotkey : String) : StoreOp → Prop
  | .upsertOp _ _ h _ _ => h = hotkey
  | .deleteOp _ => False

theorem delete_miner_index_miners (st : Storage) (hk : String) :
    (delete_miner_index st hk).miners = st.miners := by
  unfold delete_miner_index
  cases findMiner st hk <;> rfl

theorem delete_miner_index_label_dict (st : Storage) (hk : String) :
    (delete_miner_index st hk).label_dict = st.label_dict := by
  unfold delete_miner_index
  cases findMiner st hk <;> rfl

theorem upsert_miners_eq (bad : String → Bool) (st : Storage)
    (index : CompressedMinerIndex) (hk : String) (cred : ℚ) (now : String) :
    (upsert_compressed_miner_index bad st index hk cred now).miners =
      (upsert_miner st hk now cred).1.miners := by
  unfold upsert_compressed_miner_index
  rw [delete_miner_index_miners]

theorem upsert_miner_hotkeys (st : Storage) (hk now : String) (cred : ℚ) :
    (upsert_miner st hk now cred).1.miners.map (fun m => m.hotkey) =
      st.miners.map (fun m => m.hotkey) ∨
    (upsert_miner st hk now cred).1.miners.map (fun m => m.hotkey) =
      st.miners.map (fun m => m.hotkey) ++ [hk] := by
  unfold upsert_miner
  by_cases h : st.miners.any (fun m => m.hotkey = hk)
  · left
    rw [if_pos h]
    simp only [List.map_map]
    apply List.map_congr_left
    intro m _
    by_cases hm : m.hotkey = hk <;> simp [hm]
  · right
    rw [if_neg h]
    simp

theorem findMiner_eq_none_of_not_mem {st : Storage} {hk : String}
    (h : hk ∉ st.miners.map (fun m => m.hotkey)) : findMiner st hk = none := by
  unfold findMiner
  rw [List.find?_eq_none]
  intro m hm
  simp only [decide_eq_true_eq]
  intro heq
  exact h (List.mem_map.mpr ⟨m, hm, heq⟩)

theorem read_none_of_not_mem {st : Storage} {hk : String}
    (h : hk ∉ st.miners.map (fun m => m.hotkey)) :
    read_miner_index st hk = none := by
  unfold read_miner_index
  rw [findMiner_eq_none_of_not_mem h]

theorem applyOp_not_mem {st : Storage} {hk : String} {op : StoreOp}
    (h : hk ∉ st.miners.map (fun m => m.hotkey))
    (hop : ¬ upsertsHotkey hk op) :
    hk ∉ (applyOp st op).miners.map (fun m => m.hotkey) := by
  cases op with
  | upsertOp bad index h' cred now =>
    have hne : h' ≠ hk := hop
    simp only [applyOp]
    rw [upsert_miners_eq]
    rcases upsert_miner_hotkeys st h' now cred with heq | heq <;> rw [heq]
    · exact h
    · intro hmem
      rcases List.mem_append.mp hmem with hmem | hmem
      · exact h hmem
      · exact hne (List.mem_singleton.mp hmem).symm
  | deleteOp h' =>
    simp only [applyOp]
    unfold delete_miner
    intro hmem
    rcases List.mem_map.mp hmem with ⟨m, hm, hm2⟩
    have hm' := List.mem_filter.mp hm
    rw [delete_miner_index_miners] at hm'
    exact h (List.mem_map.mpr ⟨m, hm'.1, hm2⟩)

theorem runOps_not_mem {hk : String} :
    ∀ (ops : List StoreOp) (st : Storage),
      hk ∉ st.miners.map (fun m => m.hotkey) →
      (∀ op ∈ ops, ¬ upsertsHotkey hk op) →
      hk ∉ (runOps st ops).miners.map (fun m => m.hotkey) := by
  intro ops
  induction ops with
  | nil => intro st h _; exact h
  | cons op rest ih =>
    intro st h hops
    have h1 := applyOp_not_mem h (hops op (List.mem_cons_self _ _))
    exact ih (applyOp st op) h1 (fun o ho => hops o (List.mem_cons_of_mem _ ho))

/-- C8: `delete_miner` followed by `read_miner_index` of the same hotkey yields
`None`; a hotkey for which no upsert was ever run (over any operation sequence
from the fresh store) reads as `None`; and `delete_miner` of an unknown hotkey
leaves the store unchanged. -/
theorem claim_C8_delete_read_none :
    (∀ (st : Storage) (hk : String),
      read_miner_index (delete_miner st hk) hk = none) ∧
    (∀ (ops : List StoreOp) (hk : String),
      (∀ op ∈ ops, ¬ upsertsHotkey hk op) →
      read_miner_index (runOps emptyStorage ops) hk = none) ∧
    (∀ (st : Storage) (hk : String),
      findMiner st hk = none → delete_miner st hk = st) := by
  refine ⟨?_, ?_, ?_⟩
  · intro st hk
    apply read_none_of_not_mem
    unfold delete_miner
    intro hmem
    rcases List.mem_map.mp hmem with ⟨m, hm, hm2⟩
    have hm' := List.mem_filter.mp hm
    have : ¬ m.hotkey = hk := by simpa using hm'.2
    exact this hm2
  · intro ops hk hops
    apply read_none_of_not_mem
    apply runOps_not_mem ops emptyStorage _ hops
    simp [emptyStorage]
  · intro st hk hnone
    have h1 : delete_miner_index st hk = st := by
      unfold delete_miner_index
      rw [hnone]
    have h2 : st.miners.filter (fun m => ¬ m.hotkey = hk) = st.miners := by
      apply List.filter_eq_self.mpr
      intro m hm
      unfold findMiner at hnone
      have := List.find?_eq_none.mp hnone m hm
      simpa using this
    unfold delete_miner
    rw [h1]
    show ({ st with
      miners := st.miners.filter (fun m => ¬ m.hotkey = hk) } : Storage) = st
    rw [h2]

/-- C8 witness: the three conclusions at concrete inputs. -/
theorem claim_C8_delete_read_none_witness :
    read_miner_index (delete_miner emptyStorage "mA") "mA" = none ∧
    read_miner_index
      (runOps emptyStorage [StoreOp.deleteOp "mB"]) "mA" = none ∧
    delete_miner emptyStorage "mA" = emptyStorage :=
  ⟨claim_C8_delete_read_none.1 emptyStorage "mA",
    claim_C8_delete_read_none.2.1 [StoreOp.deleteOp "mB"] "mA"
      (by intro op hop; rw [List.mem_singleton.mp hop]; simp [upsertsHotkey]),
    claim_C8_delete_read_none.2.2 emptyStorage "mA" rfl⟩

/-- C9: looking up a present key returns its existing id without modifying the
interner; an absent key takes an id from the non-empty reuse pool without
growing the `items` array; the array grows (by one slot) only when the pool is
empty. -/
theorem claim_C9_interner_reuse (d : AutoIncrementDict) (key : String) :
    (∀ i, d.idxLookup key = some i → d.get_or_insert key = (d, i)) ∧
    (d.idxLookup key = none → d.available_ids ≠ [] →
      (d.get_or_insert key).2 ∈ d.available_ids ∧
      (d.get_or_insert key).1.items.length = d.items.length) ∧
    (d.idxLookup key = none → d.available_ids = [] →
      (d.get_or_insert key).1.items.length = d.items.length + 1) := by
  refine ⟨?_, ?_, ?_⟩
  · intro i hi
    unfold AutoIncrementDict.get_or_insert
    rw [hi]
  · intro hnone hpool
    unfold AutoIncrementDict.get_or_insert
    rw [hnone]
    cases hav : d.available_ids with
    | nil => exact absurd hav hpool
    | cons id rest =>
      constructor
      · simp only
        exact List.mem_cons_self _ _
      · simp only [List.length_set]
  · intro hnone hpool
    unfold AutoIncrementDict.get_or_insert
    rw [hnone, hpool]
    simp

/-- C9 witness: a pool slot is reused on a concrete interner state. -/
theorem claim_C9_interner_reuse_witness :
    (⟨[1], [some "a", none], [("a", 0)]⟩ :
        AutoIncrementDict).idxLookup "b" = none ∧
    ((⟨[1], [some "a", none], [("a", 0)]⟩ :
        AutoIncrementDict).get_or_insert "b").2 ∈ [1] ∧
    ((⟨[1], [some "a", none], [("a", 0)]⟩ :
        AutoIncrementDict).get_or_insert "b").1.items.length = 2 := by
  have h := (claim_C9_interner_reuse
    ⟨[1], [some "a", none], [("a", 0)]⟩ "b").2.1 (by decide) (by decide)
  exact ⟨by decide, h.1, h.2⟩

/-- C10: a missing label is stored under the reserved sentinel string `"NULL"`
and converts back to `None` on read; every submitted label string is casefolded
before interning; and no casefolded string can equal the sentinel, so a
submitted label never reads back as `None`. -/
theorem claim_C10_label_sentinel :
    label_value_parse_str none = "NULL" ∧
    (∀ s, label_value_parse_str (some s) = casefold s) ∧
    (∀ s, casefold s ≠ "NULL") ∧
    readBackLabel none = none ∧
    (∀ s, readBackLabel (some s) = some (casefold s)) := by
  refine ⟨rfl, fun s => rfl, casefold_ne_NULL, rfl, ?_⟩
  intro s
  unfold readBackLabel label_value_parse_str labelOfValue
  simp only
  rw [if_neg (casefold_ne_NULL s)]

/-- The submitted index with every bucket whose parsed label fails interning
removed. -/
def dropBadBuckets (bad : String → Bool) (index : CompressedMinerIndex) :
    CompressedMinerIndex :=
  ⟨index.sources.map (fun p =>
    (p.1, p.2.filter (fun cb => ¬ bad (label_value_parse_str cb.label))))⟩

theorem collectPairs_bad {bad : String → Bool} {lab : String}
    (hbad : bad lab = true) (miner_id : Nat) :
    ∀ (d : AutoIncrementDict) (ps : List (Int × Int)),
      collectPairs bad miner_id lab d ps = (d, []) := by
  intro d ps
  induction ps with
  | nil => rfl
  | cons p rest ih =>
    obtain ⟨tb, sz⟩ := p
    unfold collectPairs tryIntern
    rw [if_pos hbad]
    exact ih

theorem collectPairs_good {bad : String → Bool} {lab : String}
    (hbad : bad lab = false) (miner_id : Nat) :
    ∀ (ps : List (Int × Int)) (d : AutoIncrementDict),
      collectPairs bad miner_id lab d ps =
        collectPairs (fun _ => false) miner_id lab d ps := by
  intro ps
  induction ps with
  | nil => intro d; rfl
  | cons p rest ih =>
    intro d
    obtain ⟨tb, sz⟩ := p
    simp only [collectPairs, tryIntern, hbad, Bool.false_eq_true, if_false]
    rw [ih]

theorem collectBuckets_filter (bad : String → Bool) (miner_id : Nat) :
    ∀ (bs : List CompressedEntityBucket) (d : AutoIncrementDict),
      collectBuckets bad miner_id d bs =
        collectBuckets (fun _ => false) miner_id d
          (bs.filter (fun cb => ¬ bad (label_value_parse_str cb.label))) := by
  intro bs
  induction bs with
  | nil => intro d; rfl
  | cons cb rest ih =>
    intro d
    by_cases hbad : bad (label_value_parse_str cb.label)
    · rw [show (cb :: rest).filter
          (fun cb => ¬ bad (label_value_parse_str cb.label)) =
          rest.filter (fun cb => ¬ bad (label_value_parse_str cb.label)) by
        simp [List.filter_cons, hbad]]
      simp only [collectBuckets]
      rw [collectPairs_bad hbad]
      simp [ih]
    · rw [show (cb :: rest).filter
          (fun cb => ¬ bad (label_value_parse_str cb.label)) =
          cb :: rest.filter
            (fun cb => ¬ bad (label_value_parse_str cb.label)) by
        simp [List.filter_cons, hbad]]
      simp only [collectBuckets]
      rw [collectPairs_good (Bool.eq_false_iff.mpr (fun h => hbad h))]
      rw [ih]

theorem collectSources_filter (bad : String → Bool) (miner_id : Nat) :
    ∀ (sources : List (Nat × List CompressedEntityBucket))
      (d : AutoIncrementDict),
      collectSources bad miner_id d sources =
        collectSources (fun _ => false) miner_id d
          (sources.map (fun p =>
            (p.1, p.2.filter
              (fun cb => ¬ bad (label_value_parse_str cb.label))))) := by
  intro sources
  induction sources with
  | nil => intro d; rfl
  | cons p rest ih =>
    intro d
    obtain ⟨source, bs⟩ := p
    simp only [List.map_cons, collectSources]
    rw [collectBuckets_filter bad, ih]

/-- C7: an upsert in which interning some buckets' labels raises behaves
exactly like an upsert of the same index with those buckets removed — the
offending buckets are dropped, every other bucket is processed as if no
failure had occurred, and the call still returns a store (the exception is
swallowed inside the per-bucket loop). -/
theorem claim_C7_bad_label_isolated (bad : String → Bool) (st : Storage)
    (index : CompressedMinerIndex) (hotkey : String) (credibility : ℚ)
    (now_str : String) :
    upsert_compressed_miner_index bad st index hotkey credibility now_str =
      upsert_compressed_miner_index (fun _ => false) st
        (dropBadBuckets bad index) hotkey credibility now_str := by
  unfold upsert_compressed_miner_index dropBadBuckets
  simp only [collectSources_filter bad]

theorem mkScoredBucket_size (st : Storage) (src : Nat) (c : ℚ)
    (r : BucketRow) :
    (mkScoredBucket st src c r).size_bytes = r.contentSizeBytes := by
  unfold mkScoredBucket
  by_cases h : r.contentSizeBytes = 0 <;> simp [h]

theorem mkScoredBucket_scorable (st : Storage) (src : Nat) (c : ℚ)
    (r : BucketRow) :
    (mkScoredBucket st src c r).scorable_bytes =
      match scorableOpt st src c r with
      | none => 0
      | some q => truncRat q := by
  unfold mkScoredBucket
  cases h : scorableOpt st src c r with
  | none => rfl
  | some q =>
    simp only
    by_cases hq : q = 0
    · rw [if_pos hq, hq, truncRat_zero]
    · rw [if_neg hq]

theorem read_miner_index_eq {st : Storage} {hk : String} {mr : MinerRow}
    (hfind : findMiner st hk = some mr) :
    read_miner_index st hk =
      some
        { scorable_data_entity_buckets :=
            (minerRows st 1 mr.minerId).map
              (mkScoredBucket st 1 mr.credibility) ++
            (minerRows st 2 mr.minerId).map
              (mkScoredBucket st 2 mr.credibility)
          last_updated := mr.lastUpdated } := by
  unfold read_miner_index
  rw [hfind]

theorem mem_read_buckets {st : Storage} {mr : MinerRow} {src : Nat}
    (hsrc : src = 1 ∨ src = 2) {r : BucketRow} (hr : r ∈ tableOf st src)
    (hmid : r.minerId = mr.minerId) :
    mkScoredBucket st src mr.credibility r ∈
      (minerRows st 1 mr.minerId).map (mkScoredBucket st 1 mr.credibility) ++
      (minerRows st 2 mr.minerId).map (mkScoredBucket st 2 mr.credibility) := by
  have hrows : r ∈ minerRows st src mr.minerId := by
    unfold minerRows
    exact List.mem_filter.mpr ⟨hr, by simp [hmid]⟩
  rcases hsrc with h1 | h2
  · subst h1
    exact List.mem_append_left _ (List.mem_map_of_mem _ hrows)
  · subst h2
    exact List.mem_append_right _ (List.mem_map_of_mem _ hrows)

theorem read_bucket_cases {st : Storage} {hk : String} {mr : MinerRow}
    (hfind : findMiner st hk = some mr) {idx : ScorableMinerIndex}
    (hread : read_miner_index st hk = some idx) {b : ScorableDataEntityBucket}
    (hb : b ∈ idx.scorable_data_entity_buckets) :
    ∃ src r, (src = 1 ∨ src = 2) ∧ r ∈ tableOf st src ∧
      r.minerId = mr.minerId ∧ b = mkScoredBucket st src mr.credibility r := by
  rw [read_miner_index_eq hfind] at hread
  have hidx := Option.some_injective _ hread
  rw [← hidx] at hb
  simp only at hb
  rcases List.mem_append.mp hb with hmem | hmem
  · rcases List.mem_map.mp hmem with ⟨r, hr, hbr⟩
    have hr' := List.mem_filter.mp hr
    exact ⟨1, r, Or.inl rfl, hr'.1, by simpa using hr'.2, hbr.symm⟩
  · rcases List.mem_map.mp hmem with ⟨r, hr, hbr⟩
    have hr' := List.mem_filter.mp hr
    exact ⟨2, r, Or.inr rfl, hr'.1, by simpa using hr'.2, hbr.symm⟩

theorem scorableOpt_pos {st : Storage} {src : Nat} {r : BucketRow} {t : ℚ}
    (htot : totalAdj st src r.labelId r.timeBucketId = some t) (ht : t ≠ 0)
    (c : ℚ) :
    scorableOpt st src c r =
      some (fdiv (fmul (toReal r.contentSizeBytes)
        (fmul (toReal r.contentSizeBytes) c)) t) := by
  unfold scorableOpt
  rw [htot]
  show (if t = 0 then none
    else some (fdiv (fmul (toReal r.contentSizeBytes)
      (fmul (toReal r.contentSizeBytes) c)) t)) = _
  rw [if_neg ht]

/-- Evaluation helper: the full read of a miner whose only bucket row is `r`,
sitting in the Reddit table, with aggregate `t` and float score `q`. -/
theorem read_one_bucket_eval {st : Storage} {hk : String} {mr : MinerRow}
    {r : BucketRow} {t q : ℚ} {lab : Option String}
    (hfind : findMiner st hk = some mr)
    (h1 : minerRows st 1 mr.minerId = [r])
    (h2 : minerRows st 2 mr.minerId = [])
    (htot : totalAdj st 1 r.labelId r.timeBucketId = some t) (ht : t ≠ 0)
    (hq : fdiv (fmul (toReal r.contentSizeBytes)
      (fmul (toReal r.contentSizeBytes) mr.credibility)) t = q)
    (hlab : labelOfValue (st.label_dict.get_by_id r.labelId) = lab) :
    read_miner_index st hk = some
      ⟨[⟨r.timeBucketId, 1, lab,
          if r.contentSizeBytes = 0 then 0 else r.contentSizeBytes,
          if q = 0 then 0 else truncRat q⟩], mr.lastUpdated⟩ := by
  rw [read_miner_index_eq hfind, h1, h2]
  simp only [List.map_cons, List.map_nil, List.append_nil]
  unfold mkScoredBucket
  rw [scorableOpt_pos htot ht, hq, hlab]

theorem credOf_findMiner {st : Storage} (hwf : MinersWF st) {hk : String}
    {mr : MinerRow} (hfind : findMiner st hk = some mr) :
    credOf st mr.minerId = some mr.credibility := by
  have hmem : mr ∈ st.miners := List.mem_of_find?_eq_some hfind
  unfold credOf
  cases hfind2 : st.miners.find? (fun m => m.minerId = mr.minerId) with
  | none =>
    exact absurd (List.find?_eq_none.mp hfind2 mr hmem) (by simp)
  | some m' =>
    have hm'mem : m' ∈ st.miners := List.mem_of_find?_eq_some hfind2
    have hm'id : m'.minerId = mr.minerId := by
      simpa using List.find?_some hfind2
    have : m' = mr :=
      List.inj_on_of_nodup_map hwf.2 hm'mem hmem hm'id
    rw [this]
    rfl

theorem credOf_mem {st : Storage} {mid : Nat} {c : ℚ}
    (h : credOf st mid = some c) : ∃ m ∈ st.miners, m.credibility = c := by
  unfold credOf at h
  rcases Option.map_eq_some'.mp h with ⟨m, hfind, hc⟩
  exact ⟨m, List.mem_of_find?_eq_some hfind, hc⟩

theorem rowsAtKey_sub {st : Storage} {src : Nat} {L : Nat} {T : Int}
    {r : BucketRow} (h : r ∈ rowsAtKey st src L T) :
    r ∈ tableOf st src ∧ r.labelId = L ∧ r.timeBucketId = T := by
  have h' := List.mem_filter.mp h
  obtain ⟨hkey1, hkey2⟩ : r.labelId = L ∧ r.timeBucketId = T := by
    simpa using h'.2
  exact ⟨h'.1, hkey1, hkey2⟩

theorem mem_adjTerms {st : Storage} {src : Nat} {r : BucketRow}
    (hr : r ∈ tableOf st src) {c : ℚ} (hc : credOf st r.minerId = some c) :
    fmul (toReal r.contentSizeBytes) c ∈
      adjTerms st src r.labelId r.timeBucketId := by
  unfold adjTerms
  apply List.mem_filterMap.mpr
  refine ⟨r, ?_, by rw [hc]; rfl⟩
  unfold rowsAtKey
  exact List.mem_filter.mpr ⟨hr, by simp⟩

/-- Every adjusted-size term is a nonnegative binary64 value. -/
theorem adjTerms_nonneg {st : Storage} {src : Nat} {L : Nat} {T : Int}
    (hsz : ∀ r ∈ tableOf st src, 0 ≤ r.contentSizeBytes)
    (hcred : ∀ m ∈ st.miners, 0 ≤ m.credibility) :
    ∀ x ∈ adjTerms st src L T, 0 ≤ x ∧ RN x = x := by
  intro x hx
  unfold adjTerms at hx
  rcases List.mem_filterMap.mp hx with ⟨r, hr, hmap⟩
  rcases Option.map_eq_some'.mp hmap with ⟨c, hc, hxval⟩
  rcases credOf_mem hc with ⟨m, hm, hcm⟩
  have h1 : (0 : ℚ) ≤ (r.contentSizeBytes : ℚ) := by
    exact_mod_cast hsz r (rowsAtKey_sub hr).1
  have h2 : (0 : ℚ) ≤ c := hcm ▸ hcred m hm
  have hprod : (0 : ℚ) ≤ toReal r.contentSizeBytes * c :=
    mul_nonneg (RN_nonneg h1) h2
  rw [← hxval]
  exact ⟨RN_nonneg hprod, RN_idem hprod⟩

theorem totalAdj_eq_fold {st : Storage} {src : Nat} {L : Nat} {T : Int}
    {t : ℚ} (h : totalAdj st src L T = some t) :
    t = (adjTerms st src L T).foldl fadd 0 := by
  unfold totalAdj at h
  cases hterms : adjTerms st src L T with
  | nil => rw [hterms] at h; exact Option.noConfusion h
  | cons a l =>
    rw [hterms] at h
    have hinj := Option.some_injective _ h
    rw [hinj]

theorem totalAdj_of_ne_nil {st : Storage} {src : Nat} {L : Nat} {T : Int}
    (h : adjTerms st src L T ≠ []) :
    totalAdj st src L T = some ((adjTerms st src L T).foldl fadd 0) := by
  unfold totalAdj
  cases hterms : adjTerms st src L T with
  | nil => exact absurd hterms h
  | cons a l => rfl

/-- Core bound behind C5: a bucket row of size below `2^52` read with the
credibility of the miner that owns it scores at most its own size — the three
binary64 roundings inflate the exact ratio by less than `(1 + eps53)^2`,
which the final truncation absorbs for sizes below `2^52`. -/
theorem scorable_le_size_core {st : Storage} {src : Nat}
    (hsz : ∀ r ∈ tableOf st src,
      0 ≤ r.contentSizeBytes ∧ r.contentSizeBytes < 2^52)
    (hcred : ∀ m ∈ st.miners, 0 ≤ m.credibility)
    {r : BucketRow} (hr : r ∈ tableOf st src) {c : ℚ}
    (hc : credOf st r.minerId = some c) :
    (mkScoredBucket st src c r).scorable_bytes ≤
      (mkScoredBucket st src c r).size_bytes := by
  rw [mkScoredBucket_scorable, mkScoredBucket_size]
  cases hso : scorableOpt st src c r with
  | none => exact (hsz r hr).1
  | some q =>
    simp only
    unfold scorableOpt at hso
    cases hta : totalAdj st src r.labelId r.timeBucketId with
    | none => rw [hta] at hso; exact Option.noConfusion hso
    | some t =>
      rw [hta] at hso
      have hso' : (if t = 0 then none
          else some (fdiv (fmul (toReal r.contentSizeBytes)
            (fmul (toReal r.contentSizeBytes) c)) t)) = some q := hso
      by_cases ht0 : t = 0
      · rw [if_pos ht0] at hso'; exact Option.noConfusion hso'
      · rw [if_neg ht0] at hso'
        have hq := Option.some_injective _ hso'
        have hfold := totalAdj_eq_fold hta
        have hterms := @adjTerms_nonneg st src r.labelId r.timeBucketId
          (fun r hr => (hsz r hr).1) hcred
        have hmem := mem_adjTerms hr hc
        have hs0 : 0 ≤ r.contentSizeBytes := (hsz r hr).1
        have hs52 : r.contentSizeBytes < 2^52 := (hsz r hr).2
        have hrep : toReal r.contentSizeBytes = (r.contentSizeBytes : ℚ) :=
          toReal_int hs0 (by omega)
        have hs : (0 : ℚ) ≤ (r.contentSizeBytes : ℚ) := by exact_mod_cast hs0
        have hcnn : (0 : ℚ) ≤ c := by
          rcases credOf_mem hc with ⟨m, hm, hcm⟩
          exact hcm ▸ hcred m hm
        have htle : fmul (toReal r.contentSizeBytes) c ≤ t := by
          rw [hfold]
          exact foldl_fadd_ge_mem _ hterms 0 (le_refl 0) RN_zero _ hmem
        have ht_nonneg : 0 ≤ t := by
          rw [hfold]
          exact (foldl_fadd_inv _ hterms 0 (le_refl 0) RN_zero).1
        have htpos : 0 < t := lt_of_le_of_ne ht_nonneg (Ne.symm ht0)
        set s : ℚ := (r.contentSizeBytes : ℚ) with hsdef
        have hw_eq : fmul (toReal r.contentSizeBytes) c = RN (s * c) := by
          rw [hrep]
          rfl
        have hw0 : 0 ≤ RN (s * c) := RN_nonneg (mul_nonneg hs hcnn)
        have hnum_eq : fmul (toReal r.contentSizeBytes)
            (fmul (toReal r.contentSizeBytes) c) = RN (s * RN (s * c)) := by
          rw [hw_eq, hrep]
          rfl
        have hnum0 : 0 ≤ RN (s * RN (s * c)) :=
          RN_nonneg (mul_nonneg hs hw0)
        have hnum_ub : RN (s * RN (s * c)) ≤ s * RN (s * c) * (1 + eps53) :=
          RN_ub (mul_nonneg hs hw0)
        have hq_eq : q = RN (RN (s * RN (s * c)) / t) := by
          rw [← hq]
          unfold fdiv
          rw [hnum_eq]
        have hdiv0 : 0 ≤ RN (s * RN (s * c)) / t :=
          div_nonneg hnum0 (le_of_lt htpos)
        have hq0 : 0 ≤ q := hq_eq ▸ RN_nonneg hdiv0
        have hqub : q ≤ RN (s * RN (s * c)) / t * (1 + eps53) :=
          hq_eq ▸ RN_ub hdiv0
        have hEpos : (0:ℚ) < 1 + eps53 := by linarith [eps53_pos]
        have hwt : RN (s * c) ≤ t := hw_eq ▸ htle
        have hstep1 : RN (s * RN (s * c)) / t ≤
            s * RN (s * c) * (1 + eps53) / t :=
          (div_le_div_right htpos).mpr hnum_ub
        have hstep2 : s * RN (s * c) * (1 + eps53) / t ≤ s * (1 + eps53) := by
          rw [div_le_iff htpos]
          nlinarith [mul_le_mul_of_nonneg_left hwt
            (mul_nonneg hs (le_of_lt hEpos))]
        have hq_le : q ≤ s * (1 + eps53)^2 := by
          have h1 : RN (s * RN (s * c)) / t * (1 + eps53) ≤
              s * (1 + eps53) * (1 + eps53) :=
            mul_le_mul_of_nonneg_right (le_trans hstep1 hstep2)
              (le_of_lt hEpos)
          calc q ≤ RN (s * RN (s * c)) / t * (1 + eps53) := hqub
            _ ≤ s * (1 + eps53) * (1 + eps53) := h1
            _ = s * (1 + eps53)^2 := by ring
        have hsB : s ≤ 4503599627370495 := by
          have hle : r.contentSizeBytes ≤ 4503599627370495 := by omega
          rw [hsdef]
          exact_mod_cast hle
        have hfinal : s * (1 + eps53)^2 < s + 1 := by
          have hE : eps53 = 1/9007199254740992 := by
            unfold eps53
            norm_num
          rw [hE]
          have hKmul : s * (2*(1/9007199254740992) + (1/9007199254740992)^2) ≤
              4503599627370495 *
                (2*(1/9007199254740992) + (1/9007199254740992)^2) :=
            mul_le_mul_of_nonneg_right hsB (by norm_num)
          have hKlt : (4503599627370495:ℚ) *
              (2*(1/9007199254740992) + (1/9007199254740992)^2) < 1 := by
            norm_num
          nlinarith [hKmul, hKlt]
        have hqlt : q < s + 1 := lt_of_le_of_lt hq_le hfinal
        exact truncRat_lt_int hq0 (by push_cast; exact hqlt)

/-- C5 (amended): whenever all stored sizes lie in `[0, 2^52)` and all
credibilities lie in `[0, 1]`, every bucket returned by `read_miner_index`
satisfies `scorable_bytes ≤ size_bytes`. -/
theorem claim_C5_scorable_le_size (st : Storage) (hwf : MinersWF st)
    (hszR : ∀ r ∈ st.reddit,
      0 ≤ r.contentSizeBytes ∧ r.contentSizeBytes < 2^52)
    (hszT : ∀ r ∈ st.twitter,
      0 ≤ r.contentSizeBytes ∧ r.contentSizeBytes < 2^52)
    (hcred : ∀ m ∈ st.miners, 0 ≤ m.credibility ∧ m.credibility ≤ 1)
    (hk : String) (idx : ScorableMinerIndex)
    (hread : read_miner_index st hk = some idx)
    (b : ScorableDataEntityBucket)
    (hb : b ∈ idx.scorable_data_entity_buckets) :
    b.scorable_bytes ≤ b.size_bytes := by
  have hcred0 : ∀ m ∈ st.miners, 0 ≤ m.credibility :=
    fun m hm => (hcred m hm).1
  cases hfind : findMiner st hk with
  | none =>
    unfold read_miner_index at hread
    rw [hfind] at hread
    exact Option.noConfusion hread
  | some mr =>
    rcases read_bucket_cases hfind hread hb with ⟨src, r, hsrc, hr, hmid, hbr⟩
    have hsz : ∀ r ∈ tableOf st src,
        0 ≤ r.contentSizeBytes ∧ r.contentSizeBytes < 2^52 := by
      rcases hsrc with h | h <;> subst h
      · exact hszR
      · exact hszT
    have hc : credOf st r.minerId = some mr.credibility := by
      rw [hmid]; exact credOf_findMiner hwf hfind
    rw [hbr]
    exact scorable_le_size_core hsz hcred0 hr hc

/-- A concrete one-miner store: credibility 1, a single Reddit bucket of
100 bytes at label id 0 and time bucket 5. -/
def stOne : Storage :=
  ⟨[⟨1, "m1", "t", 1⟩], [⟨1, 0, 5, 100⟩], [], ⟨[], [some "x"], [("x", 0)]⟩⟩

/-- C5 witness: on `stOne` the returned bucket satisfies the bound. -/
theorem claim_C5_scorable_le_size_witness :
    MinersWF stOne ∧
    (⟨5, 1, some "x", 100, 100⟩ : ScorableDataEntityBucket).scorable_bytes ≤
      (⟨5, 1, some "x", 100, 100⟩ : ScorableDataEntityBucket).size_bytes := by
  have r100 : RN (100:ℚ) = 100 :=
    RN_eq_self_of 100 100 0 (by norm_num) (by norm_num) (by norm_num)
  have r10000 : RN (10000:ℚ) = 10000 :=
    RN_eq_self_of 10000 10000 0 (by norm_num) (by norm_num) (by norm_num)
  have hwf : MinersWF stOne := by decide
  refine ⟨hwf, ?_⟩
  refine claim_C5_scorable_le_size stOne hwf (by decide) (by decide)
    (by norm_num [stOne])
    "m1" ⟨[⟨5, 1, some "x", 100, 100⟩], "t"⟩ ?_ _ (by decide)
  simp [read_miner_index, findMiner, minerRows, tableOf, mkScoredBucket,
    scorableOpt, totalAdj, adjTerms, rowsAtKey, credOf, labelOfValue,
    AutoIncrementDict.get_by_id, truncRat, stOne, List.filter, List.find?,
    fmul, fadd, fdiv, toReal]
  norm_num [r100, r10000]

/-- A one-miner store holding a Reddit bucket of `2^60 + 200` bytes with
credibility 1: the size is not representable in binary64. -/
def stBig : Storage :=
  ⟨[⟨1, "m1", "t", 1⟩], [⟨1, 0, 5, 1152921504606847176⟩], [],
    ⟨[], [some "x"], [("x", 0)]⟩⟩

/-- C5 counterexample: in `stBig` every hypothesis of the claim holds
(nonnegative sizes, credibilities in `[0,1]`), yet the sole bucket reads back
`scorable_bytes = 2^60 + 256 > 2^60 + 200 = size_bytes`: the INTEGER→REAL
conversion of the size rounds `2^60 + 200` up to `2^60 + 256`, which survives
the squaring/division pipeline exactly. -/
theorem claim_C5_scorable_le_size_counterexample :
    MinersWF stBig ∧
    (∀ r ∈ stBig.reddit, 0 ≤ r.contentSizeBytes) ∧
    (∀ r ∈ stBig.twitter, 0 ≤ r.contentSizeBytes) ∧
    (∀ m ∈ stBig.miners, 0 ≤ m.credibility ∧ m.credibility ≤ 1) ∧
    read_miner_index stBig "m1" =
      some ⟨[⟨5, 1, some "x", 1152921504606847176, 1152921504606847232⟩],
        "t"⟩ ∧
    ¬ ((1152921504606847232 : Int) ≤ 1152921504606847176) := by
  have tS : RN (1152921504606847176:ℚ) = 1152921504606847232 :=
    RN_eval_near 60 4503599627370497 (by norm_num) (by norm_num)
      (by norm_num) (by norm_num) (by norm_num)
  have rS : RN (1152921504606847232:ℚ) = 1152921504606847232 :=
    RN_eq_self_of 1152921504606847232 4503599627370497 8
      (by norm_num) (by norm_num) (by norm_num)
  have rSq : RN (1329227995784916463199617418986061824:ℚ) =
      1329227995784916463199617418985996288 :=
    RN_eval_near 120 4503599627370498 (by norm_num) (by norm_num)
      (by norm_num) (by norm_num) (by norm_num)
  have rQ : RN ((5192296858534829934373505542914048:ℚ)/4503599627370497) =
      1152921504606847232 :=
    RN_eval_near 60 4503599627370497 (by norm_num) (by norm_num)
      (by norm_num) (by norm_num) (by norm_num)
  have hterms : adjTerms stBig 1 0 5 =
      [fmul (toReal 1152921504606847176) 1] := by
    unfold adjTerms
    rw [show rowsAtKey stBig 1 0 5 = [⟨1, 0, 5, 1152921504606847176⟩] from by
      simp [rowsAtKey, tableOf, stBig, List.filter]]
    rw [List.filterMap_cons_some (by
      rw [show credOf stBig 1 = some 1 from by
        simp [credOf, stBig, List.find?]]
      rfl)]
    rfl
  have hterm : fmul (toReal 1152921504606847176) 1 =
      (1152921504606847232:ℚ) := by
    unfold fmul toReal
    push_cast
    rw [tS, mul_one, rS]
  have htot : totalAdj stBig 1 0 5 = some (1152921504606847232:ℚ) := by
    unfold totalAdj
    rw [hterms]
    show some (List.foldl fadd 0 [fmul (toReal 1152921504606847176) 1]) = _
    rw [List.foldl_cons, List.foldl_nil, hterm]
    unfold fadd
    rw [zero_add, rS]
  have hq : fdiv (fmul (toReal 1152921504606847176)
      (fmul (toReal 1152921504606847176) 1)) (1152921504606847232:ℚ) =
      (1152921504606847232:ℚ) := by
    rw [hterm]
    have hnum : fmul (toReal 1152921504606847176) (1152921504606847232:ℚ) =
        (1329227995784916463199617418985996288:ℚ) := by
      unfold fmul toReal
      push_cast
      rw [tS]
      norm_num [rSq]
    rw [hnum]
    unfold fdiv
    norm_num [rQ]
  have hread := read_one_bucket_eval
    (show findMiner stBig "m1" = some ⟨1, "m1", "t", 1⟩ from by
      simp [findMiner, stBig, List.find?])
    (show minerRows stBig 1 1 = [⟨1, 0, 5, 1152921504606847176⟩] from by
      simp [minerRows, tableOf, stBig, List.filter])
    (show minerRows stBig 2 1 = [] from by
      simp [minerRows, tableOf, stBig])
    htot (by norm_num) hq
    (show labelOfValue (stBig.label_dict.get_by_id 0) = some "x" from by
      simp [labelOfValue, AutoIncrementDict.get_by_id, stBig])
  refine ⟨by decide, by decide, by decide, by norm_num [stBig], ?_,
    by norm_num⟩
  rw [hread]
  norm_num [truncRat]

/-- C2 (amended): a sole claimant of a `(source, label, timeBucket)` key with
positive credibility reads back `scorable_bytes = size_bytes` exactly
**provided** the three binary64 roundings of the pipeline are exact on its
data: the INTEGER→REAL conversion of the size and the two products
`size * credibility` and `size * (size * credibility)` must be representable.
Without these provisos the claim fails (see the counterexample). -/
theorem claim_C2_sole_claimant (st : Storage) (hwf : MinersWF st)
    (hk : String) (mr : MinerRow) (hfind : findMiner st hk = some mr)
    (src : Nat) (hsrc : src = 1 ∨ src = 2) (r : BucketRow)
    (hmid : r.minerId = mr.minerId)
    (hsole : rowsAtKey st src r.labelId r.timeBucketId = [r])
    (hcpos : 0 < mr.credibility)
    (hd1 : toReal r.contentSizeBytes = (r.contentSizeBytes : ℚ))
    (hd2 : fmul ((r.contentSizeBytes : ℚ)) mr.credibility =
      (r.contentSizeBytes : ℚ) * mr.credibility)
    (hd3 : fmul ((r.contentSizeBytes : ℚ))
        ((r.contentSizeBytes : ℚ) * mr.credibility) =
      (r.contentSizeBytes : ℚ) *
        ((r.contentSizeBytes : ℚ) * mr.credibility)) :
    ∃ idx, read_miner_index st hk = some idx ∧
      ∃ b ∈ idx.scorable_data_entity_buckets,
        b.source = src ∧ b.time_bucket_id = r.timeBucketId ∧
        b.size_bytes = r.contentSizeBytes ∧
        b.scorable_bytes = r.contentSizeBytes := by
  have hr : r ∈ tableOf st src := by
    have : r ∈ rowsAtKey st src r.labelId r.timeBucketId := by
      rw [hsole]; exact List.mem_singleton.mpr rfl
    exact (rowsAtKey_sub this).1
  have hc : credOf st r.minerId = some mr.credibility := by
    rw [hmid]; exact credOf_findMiner hwf hfind
  refine ⟨_, read_miner_index_eq hfind,
    mkScoredBucket st src mr.credibility r,
    mem_read_buckets hsrc hr hmid, rfl, rfl, mkScoredBucket_size _ _ _ _, ?_⟩
  rw [mkScoredBucket_scorable]
  have hw : fmul (toReal r.contentSizeBytes) mr.credibility =
      (r.contentSizeBytes : ℚ) * mr.credibility := by
    rw [hd1]
    exact hd2
  have hterms : adjTerms st src r.labelId r.timeBucketId =
      [fmul (toReal r.contentSizeBytes) mr.credibility] := by
    unfold adjTerms
    rw [hsole]
    simp [hc]
  have hfaddw : fadd 0 ((r.contentSizeBytes : ℚ) * mr.credibility) =
      (r.contentSizeBytes : ℚ) * mr.credibility := by
    unfold fadd
    rw [zero_add]
    unfold fmul at hd2
    exact hd2
  have htot : totalAdj st src r.labelId r.timeBucketId =
      some ((r.contentSizeBytes : ℚ) * mr.credibility) := by
    unfold totalAdj
    rw [hterms]
    show some (List.foldl fadd 0
      [fmul (toReal r.contentSizeBytes) mr.credibility]) = _
    rw [List.foldl_cons, List.foldl_nil, hw, hfaddw]
  unfold scorableOpt
  rw [htot]
  by_cases hz : (r.contentSizeBytes : ℚ) * mr.credibility = 0
  · have hs0 : (r.contentSizeBytes : ℚ) = 0 := by
      rcases mul_eq_zero.mp hz with h | h
      · exact h
      · exact absurd h (ne_of_gt hcpos)
    have hs0i : r.contentSizeBytes = 0 := by exact_mod_cast hs0
    simp only [if_pos hz]
    rw [hs0i]
  · simp only [if_neg hz]
    have hnum : fmul (toReal r.contentSizeBytes)
        (fmul (toReal r.contentSizeBytes) mr.credibility) =
        (r.contentSizeBytes : ℚ) *
          ((r.contentSizeBytes : ℚ) * mr.credibility) := by
      rw [hw, hd1]
      exact hd3
    have hdivq : fdiv ((r.contentSizeBytes : ℚ) *
        ((r.contentSizeBytes : ℚ) * mr.credibility))
        ((r.contentSizeBytes : ℚ) * mr.credibility) =
        (r.contentSizeBytes : ℚ) := by
      unfold fdiv
      rw [mul_div_assoc, div_self hz, mul_one]
      exact hd1
    rw [hnum, hdivq, truncRat_intCast]

/-- C2 witness: the sole claimant of `stOne`'s only bucket (size 100,
credibility 1 — all three roundings exact) scores its full 100 bytes. -/
theorem claim_C2_sole_claimant_witness :
    ∃ idx, read_miner_index stOne "m1" = some idx ∧
      ∃ b ∈ idx.scorable_data_entity_buckets,
        b.source = 1 ∧ b.time_bucket_id = (5 : Int) ∧
        b.size_bytes = (100 : Int) ∧ b.scorable_bytes = (100 : Int) := by
  have r100 : RN (100:ℚ) = 100 :=
    RN_eq_self_of 100 100 0 (by norm_num) (by norm_num) (by norm_num)
  have r10000 : RN (10000:ℚ) = 10000 :=
    RN_eq_self_of 10000 10000 0 (by norm_num) (by norm_num) (by norm_num)
  exact claim_C2_sole_claimant stOne (by decide) "m1" ⟨1, "m1", "t", 1⟩
    (by decide) 1 (Or.inl rfl) ⟨1, 0, 5, 100⟩ rfl (by decide) (by norm_num)
    (by unfold toReal; push_cast; rw [r100])
    (by unfold fmul; push_cast; rw [mul_one, r100])
    (by unfold fmul; push_cast; norm_num [r10000])

/-- The sole-claimant miner whose credibility is the binary64 value nearest
`1/13` (`1385722962267845 / 2^54`), claiming a single Reddit bucket of
3 bytes. -/
def stC2 : Storage :=
  ⟨[⟨1, "m1", "t", 1385722962267845/18014398509481984⟩], [⟨1, 0, 5, 3⟩], [],
    ⟨[], [some "x"], [("x", 0)]⟩⟩

/-- C2 counterexample: in `stC2` the sole claimant of the only key has
positive credibility (the binary64 double nearest `1/13`) and size 3, yet the
read returns `scorable_bytes = 2 ≠ 3 = size_bytes`: the product
`3 * (3 * credibility)` rounds (tie to even) to a value just below 3, whose
division by the aggregate rounds to `2.9999999999999996`, which `int(...)`
truncates to 2. -/
theorem claim_C2_sole_claimant_counterexample :
    MinersWF stC2 ∧
    rowsAtKey stC2 1 0 5 = [⟨1, 0, 5, 3⟩] ∧
    (0:ℚ) < 1385722962267845/18014398509481984 ∧
    read_miner_index stC2 "m1" = some ⟨[⟨5, 1, some "x", 3, 2⟩], "t"⟩ ∧
    ¬ ((2 : Int) = 3) := by
  have r3 : RN (3:ℚ) = 3 :=
    RN_eq_self_of 3 3 0 (by norm_num) (by norm_num) (by norm_num)
  have rb : RN ((4157168886803535:ℚ)/18014398509481984) =
      4157168886803535/18014398509481984 :=
    RN_eq_self_of (4157168886803535/18014398509481984) 4157168886803535 (-54)
      (by norm_num) (by norm_num) (by norm_num)
  have rnum : RN ((12471506660410605:ℚ)/18014398509481984) =
      3117876665102651/4503599627370496 :=
    RN_eval_tie (-1) 6235753330205302 (by norm_num) (by norm_num)
      (by norm_num) (by norm_num) (by norm_num)
  have rq : RN ((12471506660410604:ℚ)/4157168886803535) =
      6755399441055743/2251799813685248 :=
    RN_eval_near 1 6755399441055743 (by norm_num) (by norm_num)
      (by norm_num) (by norm_num) (by norm_num)
  have hterms : adjTerms stC2 1 0 5 =
      [fmul (toReal 3) (1385722962267845/18014398509481984)] := by
    unfold adjTerms
    rw [show rowsAtKey stC2 1 0 5 = [⟨1, 0, 5, 3⟩] from by
      simp [rowsAtKey, tableOf, stC2, List.filter]]
    rw [List.filterMap_cons_some (by
      rw [show credOf stC2 1 = some (1385722962267845/18014398509481984) from
        by simp [credOf, stC2, List.find?]]
      rfl)]
    rfl
  have hterm : fmul (toReal 3) ((1385722962267845:ℚ)/18014398509481984) =
      4157168886803535/18014398509481984 := by
    unfold fmul toReal
    push_cast
    rw [r3]
    norm_num [rb]
  have htot : totalAdj stC2 1 0 5 =
      some ((4157168886803535:ℚ)/18014398509481984) := by
    unfold totalAdj
    rw [hterms]
    show some (List.foldl fadd 0
      [fmul (toReal 3) (1385722962267845/18014398509481984)]) = _
    rw [List.foldl_cons, List.foldl_nil, hterm]
    unfold fadd
    rw [zero_add, rb]
  have hq : fdiv (fmul (toReal 3)
      (fmul (toReal 3) ((1385722962267845:ℚ)/18014398509481984)))
      ((4157168886803535:ℚ)/18014398509481984) =
      6755399441055743/2251799813685248 := by
    rw [hterm]
    have hnum : fmul (toReal 3) ((4157168886803535:ℚ)/18014398509481984) =
        3117876665102651/4503599627370496 := by
      unfold fmul toReal
      push_cast
      rw [r3]
      norm_num [rnum]
    rw [hnum]
    unfold fdiv
    norm_num [rq]
  have hread := read_one_bucket_eval
    (show findMiner stC2 "m1" =
        some ⟨1, "m1", "t", 1385722962267845/18014398509481984⟩ from by
      simp [findMiner, stC2, List.find?])
    (show minerRows stC2 1 1 = [⟨1, 0, 5, 3⟩] from by
      simp [minerRows, tableOf, stC2, List.filter])
    (show minerRows stC2 2 1 = [] from by
      simp [minerRows, tableOf, stC2])
    htot (by norm_num) hq
    (show labelOfValue (stC2.label_dict.get_by_id 0) = some "x" from by
      simp [labelOfValue, AutoIncrementDict.get_by_id, stC2])
  refine ⟨by decide, by simp [rowsAtKey, tableOf, stC2, List.filter],
    by norm_num, ?_, by norm_num⟩
  rw [hread]
  norm_num [truncRat]

/-- A concrete store whose only claimant has credibility 0, so the key's
adjusted total is 0. -/
def stZero : Storage :=
  ⟨[⟨1, "m1", "t", 0⟩], [⟨1, 0, 5, 100⟩], [], ⟨[], [some "x"], [("x", 0)]⟩⟩

/-- C4: at a key whose adjusted total is 0 (e.g. every claimant has
credibility 0) the read succeeds and reports `scorable_bytes = 0` for a
claimant's bucket at that key — SQLite division by zero yields `NULL`, which
the reader converts to 0 rather than failing. -/
theorem claim_C4_zero_total (st : Storage) (hk : String) (mr : MinerRow)
    (hfind : findMiner st hk = some mr) (src : Nat) (hsrc : src = 1 ∨ src = 2)
    (r : BucketRow) (hr : r ∈ tableOf st src) (hmid : r.minerId = mr.minerId)
    (htot : totalAdj st src r.labelId r.timeBucketId = some 0) :
    ∃ idx, read_miner_index st hk = some idx ∧
      ∃ b ∈ idx.scorable_data_entity_buckets,
        b.source = src ∧ b.time_bucket_id = r.timeBucketId ∧
        b.size_bytes = r.contentSizeBytes ∧ b.scorable_bytes = 0 := by
  refine ⟨_, read_miner_index_eq hfind,
    mkScoredBucket st src mr.credibility r,
    mem_read_buckets hsrc hr hmid, rfl, rfl, mkScoredBucket_size _ _ _ _, ?_⟩
  rw [mkScoredBucket_scorable]
  unfold scorableOpt
  rw [htot]
  simp

theorem totalAdj_stZero : totalAdj stZero 1 0 5 = some 0 := by
  unfold totalAdj
  rw [show adjTerms stZero 1 0 5 = [fmul (toReal 100) 0] from by
    unfold adjTerms
    rw [show rowsAtKey stZero 1 0 5 = [⟨1, 0, 5, 100⟩] from by
      simp [rowsAtKey, tableOf, stZero, List.filter]]
    rw [List.filterMap_cons_some (by
      rw [show credOf stZero 1 = some 0 from by
        simp [credOf, stZero, List.find?]]
      rfl)]
    rfl]
  show some (List.foldl fadd 0 [fmul (toReal 100) 0]) = _
  rw [List.foldl_cons, List.foldl_nil,
    show fmul (toReal 100) 0 = 0 from by unfold fmul; rw [mul_zero, RN_zero]]
  unfold fadd
  rw [add_zero, RN_zero]

/-- C4 witness: the zero-credibility claimant of `stZero` reads scorable 0. -/
theorem claim_C4_zero_total_witness :
    ∃ idx, read_miner_index stZero "m1" = some idx ∧
      ∃ b ∈ idx.scorable_data_entity_buckets,
        b.source = 1 ∧ b.time_bucket_id = (5 : Int) ∧
        b.size_bytes = (100 : Int) ∧ b.scorable_bytes = (0 : Int) :=
  claim_C4_zero_total stZero "m1" ⟨1, "m1", "t", 0⟩ (by decide) 1 (Or.inl rfl)
    ⟨1, 0, 5, 100⟩ (by decide) rfl totalAdj_stZero

/-- Two miners with credibility 1 claiming the same Reddit key, with sizes
100 and 50: the aggregation that exhibits a non-integral scoring formula. -/
def stC1 : Storage :=
  ⟨[⟨1, "m1", "t1", 1⟩, ⟨2, "m2", "t2", 1⟩],
   [⟨1, 0, 5, 100⟩, ⟨2, 0, 5, 50⟩], [], ⟨[], [some "x"], [("x", 0)]⟩⟩

theorem totalAdj_stC1 : totalAdj stC1 1 0 5 = some 150 := by
  unfold totalAdj
  rw [show adjTerms stC1 1 0 5 =
      [fmul (toReal 100) 1, fmul (toReal 50) 1] from by
    unfold adjTerms
    rw [show rowsAtKey stC1 1 0 5 = [⟨1, 0, 5, 100⟩, ⟨2, 0, 5, 50⟩] from by
      simp [rowsAtKey, tableOf, stC1, List.filter]]
    rw [List.filterMap_cons_some (by
      rw [show credOf stC1 1 = some 1 from by
        simp [credOf, stC1, List.find?]]
      rfl)]
    rw [List.filterMap_cons_some (by
      rw [show credOf stC1 2 = some 1 from by
        simp [credOf, stC1, List.find?]]
      rfl)]
    rfl]
  show some (List.foldl fadd 0 [fmul (toReal 100) 1, fmul (toReal 50) 1]) = _
  rw [List.foldl_cons, List.foldl_cons, List.foldl_nil,
    show fmul (toReal 100) 1 = 100 from by
      unfold fmul toReal; push_cast; rw [mul_one, RN_100, RN_100],
    show fmul (toReal 50) 1 = 50 from by
      unfold fmul toReal; push_cast; rw [mul_one, RN_50, RN_50],
    show fadd 0 (100:ℚ) = 100 from by
      unfold fadd; rw [zero_add, RN_100]]
  unfold fadd
  norm_num [RN_150]

theorem q_stC1 : fdiv (fmul (toReal 100) (fmul (toReal 100) 1)) 150 =
    4691249611844267/70368744177664 := by
  have rq : RN ((200:ℚ)/3) = 4691249611844267/70368744177664 :=
    RN_eval_near 6 4691249611844267 (by norm_num) (by norm_num)
      (by norm_num) (by norm_num) (by norm_num)
  rw [show fmul (toReal 100) 1 = 100 from by
    unfold fmul toReal; push_cast; rw [mul_one, RN_100, RN_100]]
  rw [show fmul (toReal 100) (100:ℚ) = 10000 from by
    unfold fmul toReal; push_cast; rw [RN_100]; norm_num [RN_10000]]
  unfold fdiv
  norm_num [rq]

theorem read_stC1 : read_miner_index stC1 "m1" =
    some ⟨[⟨5, 1, some "x", 100, 66⟩], "t1"⟩ := by
  have hread := read_one_bucket_eval
    (show findMiner stC1 "m1" = some ⟨1, "m1", "t1", 1⟩ from by
      simp [findMiner, stC1, List.find?])
    (show minerRows stC1 1 1 = [⟨1, 0, 5, 100⟩] from by
      simp [minerRows, tableOf, stC1, List.filter])
    (show minerRows stC1 2 1 = [] from by
      simp [minerRows, tableOf, stC1])
    totalAdj_stC1 (by norm_num) q_stC1
    (show labelOfValue (stC1.label_dict.get_by_id 0) = some "x" from by
      simp [labelOfValue, AutoIncrementDict.get_by_id, stC1])
  rw [hread]
  norm_num [truncRat]

/-- C1 counterexample: in `stC1` the key's adjusted total is 150 and the claim
would require miner m1's bucket to read
`scorable_bytes = 100 * (100 * 1) / 150 = 200/3`, but the stored
`scorable_bytes` is the integer 66 — `read_miner_index` does not return the
real-valued formula, it returns the `int(...)` truncation of its binary64
evaluation. -/
theorem claim_C1_scorable_formula_counterexample :
    totalAdj stC1 1 0 5 = some 150 ∧
    read_miner_index stC1 "m1" =
      some ⟨[⟨5, 1, some "x", 100, 66⟩], "t1"⟩ ∧
    ¬ ((66 : ℚ) = (100 : ℚ) * ((100 : ℚ) * 1) / 150) :=
  ⟨totalAdj_stC1, read_stC1, by norm_num⟩

/-- C1 (amended): with `totalAdjusted > 0` the bucket's returned
`scorable_bytes` equals the **truncation toward zero** (Python `int(...)`) of
the **binary64 evaluation** of `size * (size * credibility) / totalAdjusted`,
where `totalAdjusted` is the running binary64 sum of the binary64 products
`size * credibility` over all claimants of the key. -/
theorem claim_C1_scorable_formula (st : Storage) (hk : String) (mr : MinerRow)
    (hfind : findMiner st hk = some mr) (src : Nat) (hsrc : src = 1 ∨ src = 2)
    (r : BucketRow) (hr : r ∈ tableOf st src) (hmid : r.minerId = mr.minerId)
    (t : ℚ) (htot : totalAdj st src r.labelId r.timeBucketId = some t)
    (htpos : 0 < t) :
    ∃ idx, read_miner_index st hk = some idx ∧
      ∃ b ∈ idx.scorable_data_entity_buckets,
        b.source = src ∧ b.time_bucket_id = r.timeBucketId ∧
        b.size_bytes = r.contentSizeBytes ∧
        b.scorable_bytes =
          truncRat (fdiv (fmul (toReal r.contentSizeBytes)
            (fmul (toReal r.contentSizeBytes) mr.credibility)) t) := by
  refine ⟨_, read_miner_index_eq hfind,
    mkScoredBucket st src mr.credibility r,
    mem_read_buckets hsrc hr hmid, rfl, rfl, mkScoredBucket_size _ _ _ _, ?_⟩
  rw [mkScoredBucket_scorable, scorableOpt_pos htot (ne_of_gt htpos)]

/-- C1 witness: the amended statement evaluated on `stC1` — miner m1's bucket
reads back the truncated binary64 value
`truncRat (fdiv (fmul (toReal 100) (fmul (toReal 100) 1)) 150) = 66`. -/
theorem claim_C1_scorable_formula_witness :
    ∃ idx, read_miner_index stC1 "m1" = some idx ∧
      ∃ b ∈ idx.scorable_data_entity_buckets,
        b.source = 1 ∧ b.time_bucket_id = (5 : Int) ∧
        b.size_bytes = (100 : Int) ∧
        b.scorable_bytes =
          truncRat (fdiv (fmul (toReal 100) (fmul (toReal 100) 1)) 150) :=
  claim_C1_scorable_formula stC1 "m1" ⟨1, "m1", "t1", 1⟩ (by decide) 1
    (Or.inl rfl) ⟨1, 0, 5, 100⟩ (by decide) rfl 150 totalAdj_stC1
    (by norm_num)

theorem ite_zero_truncRat (q : ℚ) :
    (if q = 0 then 0 else truncRat q) = truncRat q := by
  by_cases h : q = 0
  · rw [if_pos h, h, truncRat_zero]
  · rw [if_neg h]

/-- The `scorableBytes` integer the claimant owning row `r` receives for it
when it reads its own index: the read query's credibility parameter is the
owner's `Miner.credibility`, which is what the `JOIN Miner` lookup yields. -/
def rowScorable (st : Storage) (source : Nat) (r : BucketRow) : Int :=
  match credOf st r.minerId with
  | none => 0
  | some c =>
    match scorableOpt st source c r with
    | none => 0
    | some q => if q = 0 then 0 else truncRat q

/-- Sum of the claimants' received `scorable_bytes` over one
`(source, label, timeBucket)` key. -/
def sumScorableAtKey (st : Storage) (source : Nat) (labelId : Nat)
    (timeBucketId : Int) : Int :=
  ((rowsAtKey st source labelId timeBucketId).map (rowScorable st source)).sum

/-- The largest claimed size at one key (0 when the key is unclaimed; under
nonnegative sizes and a nonempty key this is the maximum claimant size). -/
def maxSizeAtKey (st : Storage) (source : Nat) (labelId : Nat)
    (timeBucketId : Int) : Int :=
  ((rowsAtKey st source labelId timeBucketId).map
    (fun r => r.contentSizeBytes)).foldr max 0

theorem le_foldr_max : ∀ (l : List Int) (a : Int), ∀ x ∈ l, x ≤ l.foldr max a
  | y :: l, a, x, hx => by
    rcases List.mem_cons.mp hx with h | h
    · subst h
      exact le_max_left _ _
    · exact le_trans (le_foldr_max l a x h) (le_max_right _ _)

theorem foldr_max_nonneg : ∀ l : List Int, 0 ≤ l.foldr max 0
  | [] => le_refl 0
  | x :: l => le_trans (foldr_max_nonneg l) (le_max_right x _)

theorem rowScorable_eq {st : Storage} {src : Nat} {r : BucketRow} {c t : ℚ}
    (hc : credOf st r.minerId = some c)
    (htot : totalAdj st src r.labelId r.timeBucketId = some t) (ht : t ≠ 0) :
    rowScorable st src r =
      truncRat (fdiv (fmul (toReal r.contentSizeBytes)
        (fmul (toReal r.contentSizeBytes) c)) t) := by
  unfold rowScorable
  rw [hc]
  show (match scorableOpt st src c r with
    | none => 0
    | some q => if q = 0 then 0 else truncRat q) =
    truncRat (fdiv (fmul (toReal r.contentSizeBytes)
      (fmul (toReal r.contentSizeBytes) c)) t)
  rw [scorableOpt_pos htot ht c]
  exact ite_zero_truncRat _

theorem rowScorable_none {st : Storage} {src : Nat} {r : BucketRow}
    (hc : credOf st r.minerId = none) : rowScorable st src r = 0 := by
  unfold rowScorable
  rw [hc]

/-- Per-key sum bound: over any sublist of a key's claimant rows with sizes in
`[0, maxS]` and `maxS ≤ 2^52`, the summed received scorable bytes are at most
`maxS * (1 + eps53)^2 / t` times the summed adjusted binary64 weights. -/
theorem sum_rowScorable_le {st : Storage} {src : Nat} {L : Nat} {T : Int}
    {t : ℚ} (htot : totalAdj st src L T = some t) (htpos : 0 < t)
    (hcred : ∀ m ∈ st.miners, 0 ≤ m.credibility) (maxS : Int)
    (hmaxS : maxS ≤ 2^52) :
    ∀ rows : List BucketRow,
      (∀ r ∈ rows, r.labelId = L ∧ r.timeBucketId = T ∧
        0 ≤ r.contentSizeBytes ∧ r.contentSizeBytes ≤ maxS) →
      ((rows.map (rowScorable st src)).sum : ℚ) ≤
        (maxS : ℚ) * (1 + eps53)^2 / t *
          (rows.filterMap (fun r =>
            (credOf st r.minerId).map
              (fun c => fmul (toReal r.contentSizeBytes) c))).sum := by
  intro rows
  induction rows with
  | nil => simp
  | cons r rows ih =>
    intro hrows
    obtain ⟨hL, hT, hs0, hsle⟩ := hrows r (List.mem_cons_self _ _)
    have hrest := fun r hr => hrows r (List.mem_cons_of_mem _ hr)
    have ihr := ih hrest
    cases hc : credOf st r.minerId with
    | none =>
      rw [List.filterMap_cons_none (by rw [hc]; rfl)]
      simp only [List.map_cons, List.sum_cons, rowScorable_none hc, zero_add]
      exact ihr
    | some c =>
      have hcnn : (0 : ℚ) ≤ c := by
        rcases credOf_mem hc with ⟨m, hm, hcm⟩
        exact hcm ▸ hcred m hm
      have htot' : totalAdj st src r.labelId r.timeBucketId = some t := by
        rw [hL, hT]; exact htot
      have hrow := rowScorable_eq hc htot' (ne_of_gt htpos)
      have hsQ : (0 : ℚ) ≤ (r.contentSizeBytes : ℚ) := by exact_mod_cast hs0
      have hsleQ : (r.contentSizeBytes : ℚ) ≤ (maxS : ℚ) := by
        exact_mod_cast hsle
      have hrep : toReal r.contentSizeBytes = (r.contentSizeBytes : ℚ) :=
        toReal_int hs0 (by omega)
      set s : ℚ := (r.contentSizeBytes : ℚ) with hsdef
      have hw_eq : fmul (toReal r.contentSizeBytes) c = RN (s * c) := by
        rw [hrep]
        rfl
      have hw0 : 0 ≤ RN (s * c) := RN_nonneg (mul_nonneg hsQ hcnn)
      have hnum_eq : fmul (toReal r.contentSizeBytes)
          (fmul (toReal r.contentSizeBytes) c) = RN (s * RN (s * c)) := by
        rw [hw_eq, hrep]
        rfl
      have hnum0 : 0 ≤ RN (s * RN (s * c)) := RN_nonneg (mul_nonneg hsQ hw0)
      have hnum_ub : RN (s * RN (s * c)) ≤ s * RN (s * c) * (1 + eps53) :=
        RN_ub (mul_nonneg hsQ hw0)
      have hdiv0 : 0 ≤ RN (s * RN (s * c)) / t :=
        div_nonneg hnum0 (le_of_lt htpos)
      have hEpos : (0:ℚ) < 1 + eps53 := by linarith [eps53_pos]
      have hterm : ((rowScorable st src r : Int) : ℚ) ≤
          (maxS : ℚ) * (1 + eps53)^2 / t * RN (s * c) := by
        rw [hrow, hnum_eq]
        unfold fdiv
        have hq0 : 0 ≤ RN (RN (s * RN (s * c)) / t) := RN_nonneg hdiv0
        have hqub : RN (RN (s * RN (s * c)) / t) ≤
            RN (s * RN (s * c)) / t * (1 + eps53) := RN_ub hdiv0
        have htr : ((truncRat (RN (RN (s * RN (s * c)) / t)) : Int) : ℚ) ≤
            RN (RN (s * RN (s * c)) / t) := truncRat_le_self hq0
        have h1 : RN (s * RN (s * c)) / t ≤
            s * RN (s * c) * (1 + eps53) / t :=
          (div_le_div_right htpos).mpr hnum_ub
        have h2 : s * RN (s * c) * (1 + eps53) / t ≤
            (maxS:ℚ) * RN (s * c) * (1 + eps53) / t := by
          apply (div_le_div_right htpos).mpr
          apply mul_le_mul_of_nonneg_right _ (le_of_lt hEpos)
          exact mul_le_mul_of_nonneg_right hsleQ hw0
        have h3 : RN (s * RN (s * c)) / t * (1 + eps53) ≤
            (maxS:ℚ) * RN (s * c) * (1 + eps53) / t * (1 + eps53) :=
          mul_le_mul_of_nonneg_right (le_trans h1 h2) (le_of_lt hEpos)
        have h4 : (maxS:ℚ) * RN (s * c) * (1 + eps53) / t * (1 + eps53) =
            (maxS : ℚ) * (1 + eps53)^2 / t * RN (s * c) := by
          ring
        linarith
      rw [List.filterMap_cons_some (by rw [hc]; rfl)]
      simp only [List.map_cons, List.sum_cons, Int.cast_add]
      rw [hw_eq, mul_add]
      exact add_le_add hterm ihr

/-- Two miners with credibility 1 each claiming 100 bytes at the same Reddit
key. -/
def stTwo : Storage :=
  ⟨[⟨1, "m1", "t1", 1⟩, ⟨2, "m2", "t2", 1⟩],
   [⟨1, 0, 5, 100⟩, ⟨2, 0, 5, 100⟩], [], ⟨[], [some "x"], [("x", 0)]⟩⟩

theorem totalAdj_stTwo : totalAdj stTwo 1 0 5 = some 200 := by
  unfold totalAdj
  rw [show adjTerms stTwo 1 0 5 =
      [fmul (toReal 100) 1, fmul (toReal 100) 1] from by
    unfold adjTerms
    rw [show rowsAtKey stTwo 1 0 5 = [⟨1, 0, 5, 100⟩, ⟨2, 0, 5, 100⟩] from by
      simp [rowsAtKey, tableOf, stTwo, List.filter]]
    rw [List.filterMap_cons_some (by
      rw [show credOf stTwo 1 = some 1 from by
        simp [credOf, stTwo, List.find?]]
      rfl)]
    rw [List.filterMap_cons_some (by
      rw [show credOf stTwo 2 = some 1 from by
        simp [credOf, stTwo, List.find?]]
      rfl)]
    rfl]
  show some (List.foldl fadd 0 [fmul (toReal 100) 1, fmul (toReal 100) 1]) = _
  rw [List.foldl_cons, List.foldl_cons, List.foldl_nil,
    show fmul (toReal 100) 1 = 100 from by
      unfold fmul toReal; push_cast; rw [mul_one, RN_100, RN_100],
    show fadd 0 (100:ℚ) = 100 from by
      unfold fadd; rw [zero_add, RN_100]]
  unfold fadd
  norm_num [RN_200]

theorem q_stTwo : fdiv (fmul (toReal 100) (fmul (toReal 100) 1)) 200 = 50 := by
  rw [show fmul (toReal 100) 1 = 100 from by
    unfold fmul toReal; push_cast; rw [mul_one, RN_100, RN_100]]
  rw [show fmul (toReal 100) (100:ℚ) = 10000 from by
    unfold fmul toReal; push_cast; rw [RN_100]; norm_num [RN_10000]]
  unfold fdiv
  norm_num [RN_50]

theorem read_stTwo_m1 : read_miner_index stTwo "m1" =
    some ⟨[⟨5, 1, some "x", 100, 50⟩], "t1"⟩ := by
  have hread := read_one_bucket_eval
    (show findMiner stTwo "m1" = some ⟨1, "m1", "t1", 1⟩ from by
      simp [findMiner, stTwo, List.find?])
    (show minerRows stTwo 1 1 = [⟨1, 0, 5, 100⟩] from by
      simp [minerRows, tableOf, stTwo, List.filter])
    (show minerRows stTwo 2 1 = [] from by
      simp [minerRows, tableOf, stTwo])
    totalAdj_stTwo (by norm_num) q_stTwo
    (show labelOfValue (stTwo.label_dict.get_by_id 0) = some "x" from by
      simp [labelOfValue, AutoIncrementDict.get_by_id, stTwo])
  rw [hread]
  norm_num [truncRat]

theorem read_stTwo_m2 : read_miner_index stTwo "m2" =
    some ⟨[⟨5, 1, some "x", 100, 50⟩], "t2"⟩ := by
  have hread := read_one_bucket_eval
    (show findMiner stTwo "m2" = some ⟨2, "m2", "t2", 1⟩ from by
      simp [findMiner, stTwo, List.find?])
    (show minerRows stTwo 1 2 = [⟨2, 0, 5, 100⟩] from by
      simp [minerRows, tableOf, stTwo, List.filter])
    (show minerRows stTwo 2 2 = [] from by
      simp [minerRows, tableOf, stTwo])
    totalAdj_stTwo (by norm_num) q_stTwo
    (show labelOfValue (stTwo.label_dict.get_by_id 0) = some "x" from by
      simp [labelOfValue, AutoIncrementDict.get_by_id, stTwo])
  rw [hread]
  norm_num [truncRat]

/-- C6 (amended): at any key with a claimant of positive adjusted weight
(under the data model invariants: unique miner rows, nonnegative sizes,
credibilities in `[0,1]`) **whose data satisfy the no-overflow side condition
`(maxSize + 1) * (#claimants + 3) ≤ 2^53`**, the summed scorable bytes
received by the key's claimants never exceed the largest claimed size; the
scorable value each claimant receives from `read_miner_index` is
`rowScorable`; and concretely, two miners with size 100 and credibility 1
sharing a key each read back exactly 50. -/
theorem claim_C6_duplication_discount :
    (∀ (st : Storage) (src : Nat) (L : Nat) (T : Int),
      MinersWF st →
      (∀ r ∈ tableOf st src, 0 ≤ r.contentSizeBytes) →
      (∀ m ∈ st.miners, 0 ≤ m.credibility ∧ m.credibility ≤ 1) →
      (∃ r ∈ rowsAtKey st src L T, ∃ c, credOf st r.minerId = some c ∧
        0 < (r.contentSizeBytes : ℚ) * c) →
      (maxSizeAtKey st src L T + 1) *
        ((rowsAtKey st src L T).length + 3) ≤ 2^53 →
      sumScorableAtKey st src L T ≤ maxSizeAtKey st src L T) ∧
    (∀ (st : Storage) (src : Nat) (hk : String) (mr : MinerRow)
      (r : BucketRow),
      MinersWF st → findMiner st hk = some mr → r.minerId = mr.minerId →
      (mkScoredBucket st src mr.credibility r).scorable_bytes =
        rowScorable st src r) ∧
    (read_miner_index stTwo "m1" =
      some ⟨[⟨5, 1, some "x", 100, 50⟩], "t1"⟩ ∧
     read_miner_index stTwo "m2" =
      some ⟨[⟨5, 1, some "x", 100, 50⟩], "t2"⟩) := by
  refine ⟨?_, ?_, read_stTwo_m1, read_stTwo_m2⟩
  · intro st src L T hwf hsz hcred hex hbound
    rcases hex with ⟨r0, hr0, c0, hc0, hpos⟩
    have hs0Q : (0:ℚ) ≤ (r0.contentSizeBytes : ℚ) := by
      exact_mod_cast hsz r0 (rowsAtKey_sub hr0).1
    have hspos : 0 < (r0.contentSizeBytes : ℚ) := by
      rcases eq_or_lt_of_le hs0Q with h | h
      · exfalso
        rw [← h, zero_mul] at hpos
        exact lt_irrefl 0 hpos
      · exact h
    have hc0pos : 0 < c0 := by
      by_contra hle
      push_neg at hle
      nlinarith
    have hw0pos : 0 < fmul (toReal r0.contentSizeBytes) c0 := by
      unfold fmul toReal
      exact RN_pos (mul_pos (RN_pos hspos) hc0pos)
    have hterm0 : fmul (toReal r0.contentSizeBytes) c0 ∈
        adjTerms st src L T := by
      unfold adjTerms
      exact List.mem_filterMap.mpr ⟨r0, hr0, by rw [hc0]; rfl⟩
    have hne : adjTerms st src L T ≠ [] := List.ne_nil_of_mem hterm0
    have htot := totalAdj_of_ne_nil hne
    have hterms := @adjTerms_nonneg st src L T hsz
      (fun m hm => (hcred m hm).1)
    have htermsN : ∀ x ∈ adjTerms st src L T, 0 ≤ x :=
      fun x hx => (hterms x hx).1
    set tv : ℚ := (adjTerms st src L T).foldl fadd 0 with htv
    have htpos : 0 < tv :=
      lt_of_lt_of_le hw0pos
        (foldl_fadd_ge_mem _ hterms 0 (le_refl 0) RN_zero _ hterm0)
    have hmax0 : 0 ≤ maxSizeAtKey st src L T := foldr_max_nonneg _
    set K : Int := maxSizeAtKey st src L T with hK
    have hlen0 : (0:ℤ) ≤ ((rowsAtKey st src L T).length : ℤ) :=
      Int.ofNat_nonneg _
    have hK52 : K ≤ 2^52 := by
      nlinarith [hbound, hmax0, hlen0,
        mul_nonneg (by omega : (0:ℤ) ≤ K + 1) hlen0]
    have hrows : ∀ r ∈ rowsAtKey st src L T,
        r.labelId = L ∧ r.timeBucketId = T ∧
        0 ≤ r.contentSizeBytes ∧ r.contentSizeBytes ≤ K := by
      intro r hr
      obtain ⟨hmem, hL, hT⟩ := rowsAtKey_sub hr
      refine ⟨hL, hT, hsz r hmem, ?_⟩
      rw [hK]
      unfold maxSizeAtKey
      apply le_foldr_max
      exact List.mem_map_of_mem _ hr
    have haux := sum_rowScorable_le htot htpos
      (fun m hm => (hcred m hm).1) K hK52 (rowsAtKey st src L T) hrows
    have hfm : (rowsAtKey st src L T).filterMap (fun r =>
        (credOf st r.minerId).map
          (fun c => fmul (toReal r.contentSizeBytes) c)) =
        adjTerms st src L T := rfl
    rw [hfm] at haux
    set Sv : ℚ := (adjTerms st src L T).sum with hSv
    have hSpos : 0 < Sv :=
      lt_of_lt_of_le hw0pos (List.single_le_sum htermsN _ hterm0)
    have htlb : Sv * (1 - eps53) ^ (adjTerms st src L T).length ≤ tv := by
      have h := foldl_fadd_lb (adjTerms st src L T) htermsN 0 (le_refl 0)
      rw [zero_add] at h
      exact h
    set n1 : ℕ := (adjTerms st src L T).length with hn1
    set n : ℕ := (rowsAtKey st src L T).length with hn
    have hn1n : n1 ≤ n := by
      rw [hn1, hn]
      unfold adjTerms
      exact List.length_filterMap_le _ _
    have hE0 : (0:ℚ) ≤ 1 - eps53 := le_of_lt one_sub_eps53_pos
    have hE1 : 1 - eps53 ≤ 1 := by linarith [eps53_pos]
    have hpowmono : (1 - eps53)^n ≤ (1 - eps53)^n1 :=
      pow_le_pow_of_le_one hE0 hE1 hn1n
    have hpow1 : (0:ℚ) < (1 - eps53)^n1 := pow_pos one_sub_eps53_pos n1
    have hbern : 1 - (n:ℚ) * eps53 ≤ (1 - eps53)^n := by
      have h := one_add_mul_le_pow
        (show (-2:ℚ) ≤ -eps53 by nlinarith [eps53_pos, eps53_lt_one]) n
      calc 1 - (n:ℚ) * eps53 = 1 + (n:ℚ) * (-eps53) := by ring
        _ ≤ (1 + (-eps53))^n := h
        _ = (1 - eps53)^n := by
            rw [show (1:ℚ) + -eps53 = 1 - eps53 from by ring]
    have hKQ : (0:ℚ) ≤ (K:ℚ) := by exact_mod_cast hmax0
    have hNQ : (0:ℚ) ≤ (n:ℚ) := Nat.cast_nonneg n
    have hkey : ((K:ℚ) + 1) * ((n:ℚ) + 3) * eps53 ≤ 1 := by
      have hb : ((K:ℚ) + 1) * ((n:ℚ) + 3) ≤ 2^53 := by
        exact_mod_cast hbound
      calc ((K:ℚ) + 1) * ((n:ℚ) + 3) * eps53 ≤ (2:ℚ)^53 * eps53 :=
            mul_le_mul_of_nonneg_right hb (le_of_lt eps53_pos)
        _ = 1 := by unfold eps53; norm_num
    have harith := discount_arith hKQ hNQ hkey
    have hCB : (K:ℚ) * (1 + eps53)^2 < ((K:ℚ) + 1) * (1 - eps53)^n1 := by
      calc (K:ℚ) * (1 + eps53)^2
          < ((K:ℚ) + 1) * (1 - (n:ℚ) * eps53) := harith
        _ ≤ ((K:ℚ) + 1) * (1 - eps53)^n :=
            mul_le_mul_of_nonneg_left hbern (by linarith)
        _ ≤ ((K:ℚ) + 1) * (1 - eps53)^n1 :=
            mul_le_mul_of_nonneg_left hpowmono (by linarith)
    have hsum_le : ((sumScorableAtKey st src L T : Int) : ℚ) ≤
        (K:ℚ) * (1 + eps53)^2 / tv * Sv := by
      unfold sumScorableAtKey
      exact haux
    have h1 : (K:ℚ) * (1 + eps53)^2 / tv * Sv < (K:ℚ) + 1 := by
      rw [div_mul_eq_mul_div, div_lt_iff htpos]
      calc (K:ℚ) * (1 + eps53)^2 * Sv
          < ((K:ℚ) + 1) * (1 - eps53)^n1 * Sv :=
            mul_lt_mul_of_pos_right hCB hSpos
        _ = ((K:ℚ) + 1) * (Sv * (1 - eps53)^n1) := by ring
        _ ≤ ((K:ℚ) + 1) * tv :=
            mul_le_mul_of_nonneg_left htlb (by linarith)
    have hfinQ : ((sumScorableAtKey st src L T : Int) : ℚ) < (K:ℚ) + 1 :=
      lt_of_le_of_lt hsum_le h1
    have hfin : sumScorableAtKey st src L T < K + 1 := by
      exact_mod_cast hfinQ
    omega
  · intro st src hk mr r hwf hfind hmid
    have hc : credOf st r.minerId = some mr.credibility := by
      rw [hmid]; exact credOf_findMiner hwf hfind
    unfold mkScoredBucket rowScorable
    rw [hc]

/-- C6 witness: the general bound applied to the concrete two-miner store:
50 + 50 ≤ 100. -/
theorem claim_C6_duplication_discount_witness :
    sumScorableAtKey stTwo 1 0 5 ≤ maxSizeAtKey stTwo 1 0 5 :=
  claim_C6_duplication_discount.1 stTwo 1 0 5 (by decide) (by decide)
    (by norm_num [stTwo])
    ⟨⟨1, 0, 5, 100⟩, by decide, 1,
      by simp [credOf, stTwo, List.find?], by norm_num⟩
    (by
      rw [show maxSizeAtKey stTwo 1 0 5 = 100 from by
        simp [maxSizeAtKey, rowsAtKey, tableOf, stTwo, List.filter, max_def]]
      rw [show (rowsAtKey stTwo 1 0 5).length = 2 from by
        simp [rowsAtKey, tableOf, stTwo, List.filter]]
      norm_num)

/-- Two miners with credibility 1 each claiming `2^60 + 200` bytes at the
same Reddit key. -/
def stBig2 : Storage :=
  ⟨[⟨1, "m1", "t1", 1⟩, ⟨2, "m2", "t2", 1⟩],
   [⟨1, 0, 5, 1152921504606847176⟩, ⟨2, 0, 5, 1152921504606847176⟩], [],
   ⟨[], [some "x"], [("x", 0)]⟩⟩

theorem totalAdj_stBig2 :
    totalAdj stBig2 1 0 5 = some (2305843009213694464:ℚ) := by
  have tS : RN (1152921504606847176:ℚ) = 1152921504606847232 :=
    RN_eval_near 60 4503599627370497 (by norm_num) (by norm_num)
      (by norm_num) (by norm_num) (by norm_num)
  have rS : RN (1152921504606847232:ℚ) = 1152921504606847232 :=
    RN_eq_self_of 1152921504606847232 4503599627370497 8
      (by norm_num) (by norm_num) (by norm_num)
  have r2S : RN (2305843009213694464:ℚ) = 2305843009213694464 :=
    RN_eq_self_of 2305843009213694464 4503599627370497 9
      (by norm_num) (by norm_num) (by norm_num)
  unfold totalAdj
  rw [show adjTerms stBig2 1 0 5 =
      [fmul (toReal 1152921504606847176) 1,
       fmul (toReal 1152921504606847176) 1] from by
    unfold adjTerms
    rw [show rowsAtKey stBig2 1 0 5 =
        [⟨1, 0, 5, 1152921504606847176⟩, ⟨2, 0, 5, 1152921504606847176⟩] from
      by simp [rowsAtKey, tableOf, stBig2, List.filter]]
    rw [List.filterMap_cons_some (by
      rw [show credOf stBig2 1 = some 1 from by
        simp [credOf, stBig2, List.find?]]
      rfl)]
    rw [List.filterMap_cons_some (by
      rw [show credOf stBig2 2 = some 1 from by
        simp [credOf, stBig2, List.find?]]
      rfl)]
    rfl]
  show some (List.foldl fadd 0 [fmul (toReal 1152921504606847176) 1,
    fmul (toReal 1152921504606847176) 1]) = _
  rw [List.foldl_cons, List.foldl_cons, List.foldl_nil,
    show fmul (toReal 1152921504606847176) 1 = (1152921504606847232:ℚ) from by
      unfold fmul toReal; push_cast; rw [tS, mul_one, rS],
    show fadd 0 (1152921504606847232:ℚ) = 1152921504606847232 from by
      unfold fadd; rw [zero_add, rS]]
  unfold fadd
  norm_num [r2S]

theorem q_stBig2 : fdiv (fmul (toReal 1152921504606847176)
    (fmul (toReal 1152921504606847176) 1)) (2305843009213694464:ℚ) =
    576460752303423616 := by
  have tS : RN (1152921504606847176:ℚ) = 1152921504606847232 :=
    RN_eval_near 60 4503599627370497 (by norm_num) (by norm_num)
      (by norm_num) (by norm_num) (by norm_num)
  have rS : RN (1152921504606847232:ℚ) = 1152921504606847232 :=
    RN_eq_self_of 1152921504606847232 4503599627370497 8
      (by norm_num) (by norm_num) (by norm_num)
  have rSq : RN (1329227995784916463199617418986061824:ℚ) =
      1329227995784916463199617418985996288 :=
    RN_eval_near 120 4503599627370498 (by norm_num) (by norm_num)
      (by norm_num) (by norm_num) (by norm_num)
  have rq6 : RN ((2596148429267414967186752771457024:ℚ)/4503599627370497) =
      576460752303423616 :=
    RN_eval_near 59 4503599627370497 (by norm_num) (by norm_num)
      (by norm_num) (by norm_num) (by norm_num)
  rw [show fmul (toReal 1152921504606847176) 1 = (1152921504606847232:ℚ) from
    by unfold fmul toReal; push_cast; rw [tS, mul_one, rS]]
  rw [show fmul (toReal 1152921504606847176) (1152921504606847232:ℚ) =
      (1329227995784916463199617418985996288:ℚ) from by
    unfold fmul toReal
    push_cast
    rw [tS]
    norm_num [rSq]]
  unfold fdiv
  norm_num [rq6]

/-- C6 counterexample: in `stBig2` every hypothesis of the claim holds —
unique miner rows, nonnegative sizes, credibilities in `[0,1]`, a claimant of
positive adjusted weight — yet the two claimants of the key receive
`2^59 + 128` bytes each, summing to `2^60 + 256`, which exceeds the largest
(indeed only) claimed size `2^60 + 200`: the INTEGER→REAL conversion already
credits each claimant with more than half of a size that no one stored. -/
theorem claim_C6_duplication_discount_counterexample :
    MinersWF stBig2 ∧
    (∀ r ∈ tableOf stBig2 1, 0 ≤ r.contentSizeBytes) ∧
    (∀ m ∈ stBig2.miners, 0 ≤ m.credibility ∧ m.credibility ≤ 1) ∧
    (∃ r ∈ rowsAtKey stBig2 1 0 5, ∃ c, credOf stBig2 r.minerId = some c ∧
      0 < (r.contentSizeBytes : ℚ) * c) ∧
    sumScorableAtKey stBig2 1 0 5 = 1152921504606847232 ∧
    maxSizeAtKey stBig2 1 0 5 = 1152921504606847176 ∧
    ¬ (sumScorableAtKey stBig2 1 0 5 ≤ maxSizeAtKey stBig2 1 0 5) := by
  have hrows : rowsAtKey stBig2 1 0 5 =
      [⟨1, 0, 5, 1152921504606847176⟩, ⟨2, 0, 5, 1152921504606847176⟩] := by
    simp [rowsAtKey, tableOf, stBig2, List.filter]
  have hrow1 : rowScorable stBig2 1 ⟨1, 0, 5, 1152921504606847176⟩ =
      576460752303423616 := by
    rw [rowScorable_eq
      (show credOf stBig2 1 = some 1 from by
        simp [credOf, stBig2, List.find?])
      totalAdj_stBig2 (by norm_num)]
    rw [q_stBig2]
    norm_num [truncRat]
  have hrow2 : rowScorable stBig2 1 ⟨2, 0, 5, 1152921504606847176⟩ =
      576460752303423616 := by
    rw [rowScorable_eq
      (show credOf stBig2 2 = some 1 from by
        simp [credOf, stBig2, List.find?])
      totalAdj_stBig2 (by norm_num)]
    rw [q_stBig2]
    norm_num [truncRat]
  have hsum : sumScorableAtKey stBig2 1 0 5 = 1152921504606847232 := by
    unfold sumScorableAtKey
    rw [hrows, List.map_cons, List.map_cons, List.map_nil, hrow1, hrow2]
    norm_num
  have hmax : maxSizeAtKey stBig2 1 0 5 = 1152921504606847176 := by
    unfold maxSizeAtKey
    rw [hrows]
    simp [max_def]
  refine ⟨by decide, by decide, by norm_num [stBig2],
    ⟨⟨1, 0, 5, 1152921504606847176⟩, ?_, 1,
      by simp [credOf, stBig2, List.find?], by norm_num⟩,
    hsum, hmax, ?_⟩
  · rw [hrows]
    exact List.mem_cons_self _ _
  · rw [hsum, hmax]
    norm_num

theorem insertOrIgnore_mem {table : List BucketRow} {v r : BucketRow}
    (h : r ∈ insertOrIgnore table v) : r ∈ table ∨ r = v := by
  unfold insertOrIgnore at h
  split_ifs at h
  · exact Or.inl h
  · rcases List.mem_append.mp h with h1 | h1
    · exact Or.inl h1
    · exact Or.inr (List.mem_singleton.mp h1)

theorem insertAll_mem :
    ∀ (values : List BucketRow) (table : List BucketRow) (r : BucketRow),
      r ∈ insertAll table values → r ∈ table ∨ r ∈ values := by
  intro values
  induction values with
  | nil => intro table r h; exact Or.inl h
  | cons v values ih =>
    intro table r h
    rcases ih (insertOrIgnore table v) r h with h1 | h1
    · rcases insertOrIgnore_mem h1 with h2 | h2
      · exact Or.inl h2
      · exact Or.inr (by rw [h2]; exact List.mem_cons_self _ _)
    · exact Or.inr (List.mem_cons_of_mem _ h1)

theorem delete_miner_index_eq {st : Storage} {hk : String} {m : MinerRow}
    (hfind : findMiner st hk = some m) :
    delete_miner_index st hk =
      { st with
          reddit := st.reddit.filter (fun r => ¬ r.minerId = m.minerId),
          twitter := st.twitter.filter (fun r => ¬ r.minerId = m.minerId) } := by
  unfold delete_miner_index
  rw [hfind]

/-- After `_upsert_miner`, the hotkey resolves to a `Miner` row whose id is the
returned `miner_id`. -/
theorem upsert_miner_find (st : Storage) (hk now : String) (cred : ℚ) :
    ∃ m, findMiner (upsert_miner st hk now cred).1 hk = some m ∧
      (upsert_miner st hk now cred).2 = m.minerId := by
  unfold upsert_miner findMiner
  by_cases h : st.miners.any (fun m => m.hotkey = hk)
  · rw [if_pos h]
    rcases List.any_eq_true.mp h with ⟨x0, hx0mem, hx0⟩
    have hx0' : x0.hotkey = hk := by simpa using hx0
    have hsome : (List.find? (fun m => m.hotkey = hk)
        (st.miners.map (fun m =>
          if m.hotkey = hk then
            { m with lastUpdated := now, credibility := cred }
          else m))).isSome := by
      rw [List.find?_isSome]
      refine ⟨if x0.hotkey = hk then
          { x0 with lastUpdated := now, credibility := cred } else x0,
        List.mem_map_of_mem _ hx0mem, ?_⟩
      rw [if_pos hx0']
      simpa using hx0'
    obtain ⟨m, hm⟩ := Option.isSome_iff_exists.mp hsome
    refine ⟨m, ?_, ?_⟩
    · simp only [hm]
    · simp only [hm]
      rfl
  · rw [if_neg h]
    have hnone : List.find? (fun m => m.hotkey = hk) st.miners = none := by
      rw [List.find?_eq_none]
      intro x hx
      simp only [decide_eq_true_eq]
      intro heq
      exact h (List.any_eq_true.mpr ⟨x, hx, by simpa using heq⟩)
    refine ⟨⟨newMinerId st, hk, now, cred⟩, ?_, ?_⟩
    · simp only [List.find?_append, hnone]
      simp
    · simp only [List.find?_append, hnone]
      simp

theorem collectPairs_sound (bad : String → Bool) (mid : Nat) (lab : String) :
    ∀ (ps : List (Int × Int)) (d : AutoIncrementDict), d.WF →
      (collectPairs bad mid lab d ps).1.WF ∧
      (∀ j s, d.get_by_id j = some s →
        (collectPairs bad mid lab d ps).1.get_by_id j = some s) ∧
      (∀ r ∈ (collectPairs bad mid lab d ps).2,
        r.minerId = mid ∧ (r.timeBucketId, r.contentSizeBytes) ∈ ps ∧
        (collectPairs bad mid lab d ps).1.get_by_id r.labelId = some lab) := by
  intro ps
  induction ps with
  | nil =>
    intro d hwf
    exact ⟨hwf, fun j s h => h, fun r hr => absurd hr (List.not_mem_nil r)⟩
  | cons p rest ih =>
    intro d hwf
    obtain ⟨tb, sz⟩ := p
    by_cases hbad : bad lab
    · have hred : collectPairs bad mid lab d ((tb, sz) :: rest) =
          collectPairs bad mid lab d rest := by
        show (match tryIntern bad d lab with
          | some di =>
            let r := collectPairs bad mid lab di.1 rest
            (r.1, (⟨mid, di.2, tb, sz⟩ : BucketRow) :: r.2)
          | none => collectPairs bad mid lab d rest) = _
        unfold tryIntern
        rw [if_pos hbad]
      rw [hred]
      obtain ⟨h1, h2, h3⟩ := ih d hwf
      exact ⟨h1, h2, fun r hr =>
        ⟨(h3 r hr).1, List.mem_cons_of_mem _ (h3 r hr).2.1, (h3 r hr).2.2⟩⟩
    · have hred : collectPairs bad mid lab d ((tb, sz) :: rest) =
          ((collectPairs bad mid lab (d.get_or_insert lab).1 rest).1,
            ⟨mid, (d.get_or_insert lab).2, tb, sz⟩ ::
              (collectPairs bad mid lab (d.get_or_insert lab).1 rest).2) := by
        show (match tryIntern bad d lab with
          | some di =>
            let r := collectPairs bad mid lab di.1 rest
            (r.1, (⟨mid, di.2, tb, sz⟩ : BucketRow) :: r.2)
          | none => collectPairs bad mid lab d rest) = _
        unfold tryIntern
        rw [if_neg hbad]
      rw [hred]
      have hwf1 := @AutoIncrementDict.get_or_insert_wf d lab hwf
      have hpers := @AutoIncrementDict.get_or_insert_persists d lab hwf
      have hres := @AutoIncrementDict.get_or_insert_resolves d lab hwf
      obtain ⟨h1, h2, h3⟩ := ih (d.get_or_insert lab).1 hwf1
      refine ⟨h1, ?_, ?_⟩
      · intro j s hjs
        exact h2 j s (hpers j s hjs)
      · intro r hr
        rcases List.mem_cons.mp hr with heq | hmem
        · subst heq
          exact ⟨rfl, List.mem_cons_self _ _, h2 _ _ hres⟩
        · exact ⟨(h3 r hmem).1, List.mem_cons_of_mem _ (h3 r hmem).2.1,
            (h3 r hmem).2.2⟩

theorem collectBuckets_sound (bad : String → Bool) (mid : Nat) :
    ∀ (bs : List CompressedEntityBucket) (d : AutoIncrementDict), d.WF →
      (collectBuckets bad mid d bs).1.WF ∧
      (∀ j s, d.get_by_id j = some s →
        (collectBuckets bad mid d bs).1.get_by_id j = some s) ∧
      (∀ r ∈ (collectBuckets bad mid d bs).2,
        r.minerId = mid ∧ ∃ cb ∈ bs,
          (r.timeBucketId, r.contentSizeBytes) ∈
            cb.time_bucket_ids.zip cb.sizes_bytes ∧
          (collectBuckets bad mid d bs).1.get_by_id r.labelId =
            some (label_value_parse_str cb.label)) := by
  intro bs
  induction bs with
  | nil =>
    intro d hwf
    exact ⟨hwf, fun j s h => h, fun r hr => absurd hr (List.not_mem_nil r)⟩
  | cons cb rest ih =>
    intro d hwf
    obtain ⟨hw1, hp1, hs1⟩ := collectPairs_sound bad mid
      (label_value_parse_str cb.label)
      (cb.time_bucket_ids.zip cb.sizes_bytes) d hwf
    obtain ⟨hw2, hp2, hs2⟩ := ih
      (collectPairs bad mid (label_value_parse_str cb.label) d
        (cb.time_bucket_ids.zip cb.sizes_bytes)).1 hw1
    simp only [collectBuckets]
    refine ⟨hw2, ?_, ?_⟩
    · intro j s hjs
      exact hp2 j s (hp1 j s hjs)
    · intro r hr
      rcases List.mem_append.mp hr with hmem | hmem
      · obtain ⟨hm, hpair, hlab⟩ := hs1 r hmem
        exact ⟨hm, cb, List.mem_cons_self _ _, hpair, hp2 _ _ hlab⟩
      · obtain ⟨hm, cb', hcb', hpair, hlab⟩ := hs2 r hmem
        exact ⟨hm, cb', List.mem_cons_of_mem _ hcb', hpair, hlab⟩

theorem collectSources_sound (bad : String → Bool) (mid : Nat) :
    ∀ (sources : List (Nat × List CompressedEntityBucket))
      (d : AutoIncrementDict), d.WF →
      (collectSources bad mid d sources).1.WF ∧
      (∀ j s, d.get_by_id j = some s →
        (collectSources bad mid d sources).1.get_by_id j = some s) ∧
      (∀ r ∈ (collectSources bad mid d sources).2.1,
        r.minerId = mid ∧ ∃ p ∈ sources, p.1 = 1 ∧ ∃ cb ∈ p.2,
          (r.timeBucketId, r.contentSizeBytes) ∈
            cb.time_bucket_ids.zip cb.sizes_bytes ∧
          (collectSources bad mid d sources).1.get_by_id r.labelId =
            some (label_value_parse_str cb.label)) ∧
      (∀ r ∈ (collectSources bad mid d sources).2.2,
        r.minerId = mid ∧ ∃ p ∈ sources, ¬ p.1 = 1 ∧ ∃ cb ∈ p.2,
          (r.timeBucketId, r.contentSizeBytes) ∈
            cb.time_bucket_ids.zip cb.sizes_bytes ∧
          (collectSources bad mid d sources).1.get_by_id r.labelId =
            some (label_value_parse_str cb.label)) := by
  intro sources
  induction sources with
  | nil =>
    intro d hwf
    exact ⟨hwf, fun j s h => h,
      fun r hr => absurd hr (List.not_mem_nil r),
      fun r hr => absurd hr (List.not_mem_nil r)⟩
  | cons p rest ih =>
    intro d hwf
    obtain ⟨source, bs⟩ := p
    obtain ⟨hw1, hp1, hs1⟩ := collectBuckets_sound bad mid bs d hwf
    obtain ⟨hw2, hp2, hsR, hsT⟩ := ih (collectBuckets bad mid d bs).1 hw1
    by_cases hsrc : source = 1
    · simp only [collectSources, if_pos hsrc]
      refine ⟨hw2, ?_, ?_, ?_⟩
      · intro j s hjs
        exact hp2 j s (hp1 j s hjs)
      · intro r hr
        rcases List.mem_append.mp hr with hmem | hmem
        · obtain ⟨hm, cb, hcb, hpair, hlab⟩ := hs1 r hmem
          exact ⟨hm, (source, bs), List.mem_cons_self _ _, hsrc,
            cb, hcb, hpair, hp2 _ _ hlab⟩
        · obtain ⟨hm, p', hp', h1', cb, hcb, hpair, hlab⟩ := hsR r hmem
          exact ⟨hm, p', List.mem_cons_of_mem _ hp', h1', cb, hcb, hpair, hlab⟩
      · intro r hr
        obtain ⟨hm, p', hp', h1', cb, hcb, hpair, hlab⟩ := hsT r hr
        exact ⟨hm, p', List.mem_cons_of_mem _ hp', h1', cb, hcb, hpair, hlab⟩
    · simp only [collectSources, if_neg hsrc]
      refine ⟨hw2, ?_, ?_, ?_⟩
      · intro j s hjs
        exact hp2 j s (hp1 j s hjs)
      · intro r hr
        obtain ⟨hm, p', hp', h1', cb, hcb, hpair, hlab⟩ := hsR r hr
        exact ⟨hm, p', List.mem_cons_of_mem _ hp', h1', cb, hcb, hpair, hlab⟩
      · intro r hr
        rcases List.mem_append.mp hr with hmem | hmem
        · obtain ⟨hm, cb, hcb, hpair, hlab⟩ := hs1 r hmem
          exact ⟨hm, (source, bs), List.mem_cons_self _ _, hsrc,
            cb, hcb, hpair, hp2 _ _ hlab⟩
        · obtain ⟨hm, p', hp', h1', cb, hcb, hpair, hlab⟩ := hsT r hmem
          exact ⟨hm, p', List.mem_cons_of_mem _ hp', h1', cb, hcb, hpair, hlab⟩

/-- C3: after an index upsert, every bucket the miner's `read_miner_index`
returns comes from the just-submitted `CompressedMinerIndex` — no bucket of
any previously stored index survives unless the new index claims it.  Stated
over an arbitrary prior store, which covers every earlier submission. -/
theorem claim_C3_replacement_atomicity (st : Storage)
    (hwf : st.label_dict.WF) (bad : String → Bool)
    (index : CompressedMinerIndex) (hk : String) (cred : ℚ) (now : String)
    (idx : ScorableMinerIndex)
    (hread : read_miner_index
      (upsert_compressed_miner_index bad st index hk cred now) hk = some idx)
    (b : ScorableDataEntityBucket)
    (hb : b ∈ idx.scorable_data_entity_buckets) :
    ∃ p ∈ index.sources, ∃ cb ∈ p.2,
      b.source = (if p.1 = 1 then 1 else 2) ∧
      b.time_bucket_id ∈ cb.time_bucket_ids ∧
      b.label = readBackLabel cb.label := by
  obtain ⟨m, hfindm, hmidm⟩ := upsert_miner_find st hk now cred
  have hup : upsert_compressed_miner_index bad st index hk cred now =
      { miners := (upsert_miner st hk now cred).1.miners,
        reddit := insertAll
          ((upsert_miner st hk now cred).1.reddit.filter
            (fun r => ¬ r.minerId = m.minerId))
          (collectSources bad (upsert_miner st hk now cred).2
            (upsert_miner st hk now cred).1.label_dict index.sources).2.1,
        twitter := insertAll
          ((upsert_miner st hk now cred).1.twitter.filter
            (fun r => ¬ r.minerId = m.minerId))
          (collectSources bad (upsert_miner st hk now cred).2
            (upsert_miner st hk now cred).1.label_dict index.sources).2.2,
        label_dict := (collectSources bad (upsert_miner st hk now cred).2
          (upsert_miner st hk now cred).1.label_dict index.sources).1 } := by
    show ({ delete_miner_index
        { (upsert_miner st hk now cred).1 with
          label_dict := (collectSources bad (upsert_miner st hk now cred).2
            (upsert_miner st hk now cred).1.label_dict index.sources).1 } hk
        with
        reddit := insertAll
          (delete_miner_index
            { (upsert_miner st hk now cred).1 with
              label_dict :=
                (collectSources bad (upsert_miner st hk now cred).2
                  (upsert_miner st hk now cred).1.label_dict
                  index.sources).1 } hk).reddit
          (collectSources bad (upsert_miner st hk now cred).2
            (upsert_miner st hk now cred).1.label_dict index.sources).2.1,
        twitter := insertAll
          (delete_miner_index
            { (upsert_miner st hk now cred).1 with
              label_dict :=
                (collectSources bad (upsert_miner st hk now cred).2
                  (upsert_miner st hk now cred).1.label_dict
                  index.sources).1 } hk).twitter
          (collectSources bad (upsert_miner st hk now cred).2
            (upsert_miner st hk now cred).1.label_dict index.sources).2.2 } :
      Storage) = _
    rw [delete_miner_index_eq
      (show findMiner
        { (upsert_miner st hk now cred).1 with
          label_dict := (collectSources bad (upsert_miner st hk now cred).2
            (upsert_miner st hk now cred).1.label_dict index.sources).1 } hk =
        some m from hfindm)]
  have hfind' : findMiner
      (upsert_compressed_miner_index bad st index hk cred now) hk = some m := by
    rw [hup]; exact hfindm
  obtain ⟨hwC, hpC, hsR, hsT⟩ := collectSources_sound bad
    (upsert_miner st hk now cred).2 index.sources
    (upsert_miner st hk now cred).1.label_dict hwf
  rcases read_bucket_cases hfind' hread hb with ⟨src, r, hsrcor, hr, hmidr, hbr⟩
  have hlabel_dict : (upsert_compressed_miner_index bad st index hk cred
      now).label_dict = (collectSources bad (upsert_miner st hk now cred).2
        (upsert_miner st hk now cred).1.label_dict index.sources).1 := by
    rw [hup]
  rcases hsrcor with hsrc1 | hsrc2
  · subst hsrc1
    have hr' : r ∈ insertAll
        ((upsert_miner st hk now cred).1.reddit.filter
          (fun r => ¬ r.minerId = m.minerId))
        (collectSources bad (upsert_miner st hk now cred).2
          (upsert_miner st hk now cred).1.label_dict index.sources).2.1 := by
      have := hr
      rw [hup] at this
      simpa [tableOf] using this
    rcases insertAll_mem _ _ _ hr' with hbase | hvals
    · exfalso
      have := List.mem_filter.mp hbase
      have hne : ¬ r.minerId = m.minerId := by simpa using this.2
      exact hne hmidr
    · obtain ⟨_, p, hpmem, hp1, cb, hcbmem, hpair, hlab⟩ := hsR r hvals
      refine ⟨p, hpmem, cb, hcbmem, ?_, ?_, ?_⟩
      · rw [hbr, hp1]
        rfl
      · rw [hbr]
        exact (List.of_mem_zip hpair).1
      · rw [hbr]
        show labelOfValue ((upsert_compressed_miner_index bad st index hk cred
          now).label_dict.get_by_id r.labelId) = readBackLabel cb.label
        rw [hlabel_dict, hlab]
        rfl
  · subst hsrc2
    have hr' : r ∈ insertAll
        ((upsert_miner st hk now cred).1.twitter.filter
          (fun r => ¬ r.minerId = m.minerId))
        (collectSources bad (upsert_miner st hk now cred).2
          (upsert_miner st hk now cred).1.label_dict index.sources).2.2 := by
      have := hr
      rw [hup] at this
      simpa [tableOf] using this
    rcases insertAll_mem _ _ _ hr' with hbase | hvals
    · exfalso
      have := List.mem_filter.mp hbase
      have hne : ¬ r.minerId = m.minerId := by simpa using this.2
      exact hne hmidr
    · obtain ⟨_, p, hpmem, hp1, cb, hcbmem, hpair, hlab⟩ := hsT r hvals
      refine ⟨p, hpmem, cb, hcbmem, ?_, ?_, ?_⟩
      · rw [hbr, if_neg hp1]
        rfl
      · rw [hbr]
        exact (List.of_mem_zip hpair).1
      · rw [hbr]
        show labelOfValue ((upsert_compressed_miner_index bad st index hk cred
          now).label_dict.get_by_id r.labelId) = readBackLabel cb.label
        rw [hlabel_dict, hlab]
        rfl

/-- C3 witness: replacing `stOne`'s index (one bucket at time bucket 5) with a
new single-bucket index at time bucket 7 yields a read whose only bucket comes
from the new index. -/
theorem claim_C3_replacement_atomicity_witness :
    stOne.label_dict.WF ∧
    (∃ p ∈ ([(1, [⟨some "y", [7], [30]⟩])] :
        List (Nat × List CompressedEntityBucket)), ∃ cb ∈ p.2,
      (⟨7, 1, some "y", 30, 30⟩ : ScorableDataEntityBucket).source =
        (if p.1 = 1 then 1 else 2) ∧
      (⟨7, 1, some "y", 30, 30⟩ : ScorableDataEntityBucket).time_bucket_id ∈
        cb.time_bucket_ids ∧
      (⟨7, 1, some "y", 30, 30⟩ : ScorableDataEntityBucket).label =
        readBackLabel cb.label) := by
  refine ⟨by decide, ?_⟩
  refine claim_C3_replacement_atomicity stOne (by decide) (fun _ => false)
    ⟨[(1, [⟨some "y", [7], [30]⟩])]⟩ "m1" 1 "t2"
    ⟨[⟨7, 1, some "y", 30, 30⟩], "t2"⟩ ?_ ⟨7, 1, some "y", 30, 30⟩ (by decide)
  simp [read_miner_index, findMiner, minerRows, tableOf, mkScoredBucket,
    scorableOpt, totalAdj, adjTerms, rowsAtKey, credOf, labelOfValue,
    AutoIncrementDict.get_by_id, truncRat, stOne, List.filter, List.find?,
    upsert_compressed_miner_index, upsert_miner, newMinerId, collectSources,
    collectBuckets, collectPairs, tryIntern, insertAll, insertOrIgnore,
    delete_miner_index, label_value_parse_str, casefold, casefoldChar,
    AutoIncrementDict.get_or_insert, AutoIncrementDict.idxLookup]
  rw [show fmul (toReal 30) 1 = 30 from by
    unfold fmul toReal; push_cast; rw [mul_one, RN_30, RN_30]]
  rw [show fadd 0 (30:ℚ) = 30 from by unfold fadd; rw [zero_add, RN_30]]
  rw [show fmul (toReal 30) (30:ℚ) = 900 from by
    unfold fmul toReal; push_cast; rw [RN_30]; norm_num [RN_900]]
  rw [show fdiv (900:ℚ) 30 = 30 from by unfold fdiv; norm_num [RN_30]]
  norm_num

end DataUniverse
